import Mathlib

/-!
The motion-state loop of teleop_twist_keyboard.

A shallow embedding of `src/teleop_twist_keyboard.cpp`.

* The C++ `float` variables `speed`, `angle`, `speedlim`, `anglelim` and the
  entries of the three binding tables are read in two ways. In `State`,
  `update` and `run` they are exact rationals, the decimal literals of the
  source being the rationals they denote (`0.2 = 1/5`, `1.1 = 11/10`,
  `0.9 = 9/10`), and no product or sum is rounded. In `State32`, `update32`
  and `run32` they are binary32 values (`F32`): every product and sum is
  rounded to nearest, ties to even, with subnormals, overflow to an infinity
  and NaN. The two readings of the limit block agree to within rounding while
  the limit is between `2 ^ (-125)` and `2 ^ 127` (`fmul32_raise_close`,
  `fmul32_lower_close`); at the ends of the binary32 range they do not, and
  the statements about what a limit update does to a limit are made on
  `State32`.
* The `geometry_msgs::Twist` message has real components: `tan` and `M_PI`
  are `Real.tan` and `Real.pi`.
* A `std::map<char, std::vector<float>>` is an association list with
  `count` and `operator[]` as `mapCount` and `mapAt`.
* The terminal is the pair of `c_lflag` bits `ICANON`, `ECHO` and the two
  `c_cc` cells `VMIN`, `VTIME`; the `tcgetattr`/`tcsetattr` calls are taken to
  succeed.
* One loop iteration receives `none` when no character is buffered
  (`kbhit()` false) and `some c` when `getch()` returns `c`.
-/

namespace Teleop

/-! ## Binding tables -/

/-- A `std::map<char, std::vector<float>>` whose vectors have two cells. -/
abbrev Bindings := List (Char × (ℚ × ℚ))

/-- The `count(key)` of a map: 1 when the key is present, else 0. -/
def mapCount (m : Bindings) (key : Char) : Nat :=
  match m.lookup key with
  | some _ => 1
  | none => 0

/-- The `m[key]` of a map; only evaluated under a `count(key) == 1` guard. -/
def mapAt (m : Bindings) (key : Char) : ℚ × ℚ :=
  (m.lookup key).getD (0, 0)

/-- Map for acceleration keys: multiplicator, additive magnitude [m/s]. -/
def speedBindings : Bindings :=
  [('A', (1, 1/5)), ('B', (1, -(1/5))), ('0', (0, 0))]

/-- Map for turning keys: multiplicator, additive magnitude [deg]. -/
def angleBindings : Bindings :=
  [('C', (1, -10)), ('D', (1, 10)), ('0', (0, 0))]

/-- Map for limiting values: case (0 - max angle, 1 - max speed), magnitude. -/
def limitBindings : Bindings :=
  [('e', (0, 11/10)), ('d', (0, 9/10)), ('w', (1, 11/10)), ('s', (1, 9/10))]

/-- The constant `H` of the kinematic relation, `#define H 0.7`. -/
def H : ℚ := 7/10

/-! ## Motion state -/

/-- The four global `float` variables of the program. -/
structure State where
  speed : ℚ
  angle : ℚ
  speedlim : ℚ
  anglelim : ℚ
deriving DecidableEq, Repr

/-- The initial values of the globals: `speed(0.0)`, `angle(0.0)`,
`speedlim(1.0)`, `anglelim(20.0)`. -/
def init : State := { speed := 0, angle := 0, speedlim := 1, anglelim := 20 }

/-- The two `if`s that follow a speed (or angle) assignment:
`if (v > lim) v = lim; if (v < -lim) v = -lim;`. -/
def clampTo (v lim : ℚ) : ℚ :=
  let v := if v > lim then lim else v
  if v < -lim then -lim else v

/-- The body of the `speedBindings` block for a table entry `(m, i)`:
`speed = m*speed + i` followed by the two limiting `if`s. -/
def applySpeedUpdate (s : State) (m i : ℚ) : State :=
  { s with speed := clampTo (m * s.speed + i) s.speedlim }

/-- The body of the `angleBindings` block for a table entry `(m, i)`. -/
def applyAngleUpdate (s : State) (m i : ℚ) : State :=
  { s with angle := clampTo (m * s.angle + i) s.anglelim }

/-- The body of the `limitBindings` block for a table entry `(sel, f)`:
`if (sel) speedlim = speedlim*f; else anglelim = anglelim*f;`, with the
product taken exactly. The `float` product, which saturates at the ends of the
binary32 range, is `applyLimitUpdate32`. -/
def applyLimitUpdate (s : State) (sel f : ℚ) : State :=
  if sel ≠ 0 then { s with speedlim := s.speedlim * f }
  else { s with anglelim := s.anglelim * f }

/-- The block `if (speedBindings.count(key) == 1) { ... }`. -/
def speedBlock (s : State) (key : Char) : State :=
  if mapCount speedBindings key = 1 then
    applySpeedUpdate s (mapAt speedBindings key).1 (mapAt speedBindings key).2
  else s

/-- The block `if (angleBindings.count(key) == 1) { ... }`. -/
def angleBlock (s : State) (key : Char) : State :=
  if mapCount angleBindings key = 1 then
    applyAngleUpdate s (mapAt angleBindings key).1 (mapAt angleBindings key).2
  else s

/-- The block `if (limitBindings.count(key) == 1) { ... }`. -/
def limitBlock (s : State) (key : Char) : State :=
  if mapCount limitBindings key = 1 then
    applyLimitUpdate s (mapAt limitBindings key).1 (mapAt limitBindings key).2
  else s

/-- The three blocks of one loop iteration, in source order. -/
def update (s : State) (key : Char) : State :=
  limitBlock (angleBlock (speedBlock s key) key) key

/-- The number of the three blocks whose guard holds for `key`. -/
def firedCount (key : Char) : Nat :=
  (if mapCount speedBindings key = 1 then 1 else 0)
    + (if mapCount angleBindings key = 1 then 1 else 0)
    + (if mapCount limitBindings key = 1 then 1 else 0)

/-- The number of binding tables that contain `key`. -/
def tablesContaining (key : Char) : Nat :=
  mapCount speedBindings key + mapCount angleBindings key + mapCount limitBindings key

/-! ## Terminal -/

/-- The part of `struct termios` the program touches. -/
structure Termios where
  icanon : Bool
  echo : Bool
  vmin : Nat
  vtime : Nat
deriving DecidableEq, Repr

/-- The function `echoOff`: clear `ECHO`. -/
def echoOff (t : Termios) : Termios := { t with echo := false }

/-- The function `echoOn`: set `ECHO`. -/
def echoOn (t : Termios) : Termios := { t with echo := true }

/-- The call `tcsetattr(STDIN_FILENO, TCSANOW, &term)`: the terminal takes the
attributes it is given. -/
def tcsetattr (_current term : Termios) : Termios := term

/-- The function `kbhit`: clear `ICANON`, ask how many characters are
buffered, restore the original attributes. -/
def kbhit (t : Termios) (input : Option Char) : Termios × Bool :=
  let original := t
  let term := { original with icanon := false }
  let t := tcsetattr t term
  let characters_buffered := if input.isSome then 1 else 0
  let t := tcsetattr t original
  (t, characters_buffered ≠ 0)

/-- The function `getch`: raw mode for one `read`, then `ICANON` and `ECHO`
set again; `buf` stays 0 when nothing is read. -/
def getch (t : Termios) (input : Option Char) : Termios × Char :=
  let old := t
  let old := { old with icanon := false, echo := false, vmin := 1, vtime := 0 }
  let t := tcsetattr t old
  let buf := input.getD (Char.ofNat 0)
  let old := { old with icanon := true, echo := true }
  let t := tcsetattr t old
  (t, buf)

/-- The key a loop iteration works with: `' '` unless `kbhit()` holds, in
which case it is what `getch()` returns. -/
def readKey (t : Termios) (input : Option Char) : Termios × Char :=
  let key := ' '
  let t := echoOff t
  let r := kbhit t input
  if r.2 then getch r.1 input else (r.1, key)

/-! ## Velocity command -/

/-- A `geometry_msgs::Vector3`. -/
structure Vector3 where
  x : ℝ
  y : ℝ
  z : ℝ

/-- A `geometry_msgs::Twist`. -/
structure Twist where
  linear : Vector3
  angular : Vector3

/-- The "Update the Twist message" assignments. -/
noncomputable def twistOf (s : State) : Twist :=
  { linear := { x := (s.speed : ℝ), y := 0, z := 0 }
    angular :=
      { x := 0, y := 0
        z := (s.speed : ℝ) * Real.tan ((s.angle : ℝ) * Real.pi / 180) / (H : ℝ) } }

/-- What one loop iteration leaves behind. -/
structure TickResult where
  term : Termios
  state : State
  published : Option Twist
  exited : Bool

/-- One iteration of `while(true)`: read the key, run the three blocks, then
either `break` on `'q'` (after `echoOn`) or publish the Twist message. -/
noncomputable def tick (t : Termios) (s : State) (input : Option Char) : TickResult :=
  let r := readKey t input
  let s := update s r.2
  if r.2 = 'q' then
    { term := echoOn r.1, state := s, published := none, exited := true }
  else
    { term := r.1, state := s, published := some (twistOf s), exited := false }

/-- The key of an iteration, without the terminal. -/
def keyOf (input : Option Char) : Char := (readKey ⟨true, true, 1, 0⟩ input).2

/-- The motion state after the loop has consumed the inputs, one per
iteration; the loop stops at the first `'q'`. -/
def run : State → List (Option Char) → State
  | s, [] => s
  | s, i :: rest =>
    if keyOf i = 'q' then update s (keyOf i) else run (update s (keyOf i)) rest

/-- The symbols the loop is driven with in the reachability statements: no
key, or one of the keys of the three binding tables. -/
def tableInputs : List (Option Char) :=
  [none, some 'A', some 'B', some '0', some 'C', some 'D',
    some 'e', some 'd', some 'w', some 's']

/-- Both magnitudes are within their limits. -/
def Bounded (s : State) : Prop :=
  |s.speed| ≤ s.speedlim ∧ |s.angle| ≤ s.anglelim

/-- Both limits are non-negative and both magnitudes are within them. -/
def Inv (s : State) : Prop :=
  0 ≤ s.speedlim ∧ 0 ≤ s.anglelim ∧ Bounded s

/-- The angle limit is positive and, like the angle, within `20 * 1.1 ^ k`:
what `k` ticks with the key `'e'` can raise the initial limit to. -/
def AngleWithin (k : ℕ) (s : State) : Prop :=
  0 < s.anglelim ∧ s.anglelim ≤ 20 * (11/10) ^ k ∧ |s.angle| ≤ 20 * (11/10) ^ k

/-! ## The `float` variables as binary32 values

The limit block multiplies a limit by a table factor in `float`. Where a claim
turns on what that product does at the ends of the binary32 range, the state
is taken with binary32 fields and the products are rounded. -/

/-- A binary32 value: a finite rational on the binary32 grid (the two zeros
are not told apart), an infinity with its sign, or a NaN. -/
inductive F32 where
  | finite (q : ℚ)
  | inf (negative : Bool)
  | nan
deriving DecidableEq

/-- Round to the nearest integer, ties to even. -/
def roundHalfEven (x : ℚ) : ℤ :=
  if x - ⌊x⌋ < 1/2 then ⌊x⌋
  else if 1/2 < x - ⌊x⌋ then ⌊x⌋ + 1
  else if ⌊x⌋ % 2 = 0 then ⌊x⌋ else ⌊x⌋ + 1

/-- Search upwards from `e`, in at most `fuel` steps, for the exponent of the
binade of `a`: stop at the first `e` with `a < 2 ^ (e + 1)`. -/
def binadeFrom (a : ℚ) : ℕ → ℤ → ℤ
  | 0, e => e
  | fuel + 1, e => if (2 : ℚ) ^ (e + 1) ≤ a then binadeFrom a fuel (e + 1) else e

/-- The binary32 exponent of `q`: the `e` with `2 ^ e ≤ |q| < 2 ^ (e + 1)`, kept
between the least exponent -126 (subnormals) and the greatest exponent 127. -/
def expo32 (q : ℚ) : ℤ := binadeFrom |q| 253 (-126)

/-- The unit in the last place of binary32 at `q`: 24 significant bits. -/
def ulp32 (q : ℚ) : ℚ := 2 ^ (expo32 q - 23)

/-- Round a rational to binary32, to nearest with ties to even; a rounded
magnitude of `2 ^ 128` or more is an infinity. -/
def round32 (q : ℚ) : F32 :=
  if 2 ^ 128 ≤ |(roundHalfEven (q / ulp32 q) : ℚ) * ulp32 q| then F32.inf (decide (q < 0))
  else F32.finite (roundHalfEven (q / ulp32 q) * ulp32 q)

/-- The binary32 product `a * b`. -/
def fmul32 : F32 → F32 → F32
  | F32.finite a, F32.finite b => round32 (a * b)
  | F32.finite a, F32.inf n => if a = 0 then F32.nan else F32.inf (xor (decide (a < 0)) n)
  | F32.inf n, F32.finite b => if b = 0 then F32.nan else F32.inf (xor n (decide (b < 0)))
  | F32.inf n, F32.inf m => F32.inf (xor n m)
  | _, _ => F32.nan

/-- The binary32 sum `a + b`. -/
def fadd32 : F32 → F32 → F32
  | F32.finite a, F32.finite b => round32 (a + b)
  | F32.finite _, F32.inf n => F32.inf n
  | F32.inf n, F32.finite _ => F32.inf n
  | F32.inf n, F32.inf m => if n = m then F32.inf n else F32.nan
  | _, _ => F32.nan

/-- The binary32 negation `-a`. -/
def fneg32 : F32 → F32
  | F32.finite a => F32.finite (-a)
  | F32.inf n => F32.inf (!n)
  | F32.nan => F32.nan

/-- The binary32 comparison `a < b`; false when either side is a NaN. -/
def flt32 : F32 → F32 → Bool
  | F32.finite a, F32.finite b => decide (a < b)
  | F32.finite _, F32.inf m => !m
  | F32.inf n, F32.finite _ => n
  | F32.inf n, F32.inf m => n && !m
  | _, _ => false

/-- The `float` stored for a decimal literal of the tables. The literals
`0`, `1`, `0.2`, `10`, `1.1`, `0.9` round to the same binary32 value directly
and through `double`. -/
def lit32 (q : ℚ) : F32 := round32 q

/-- The four global `float` variables, as binary32 values. -/
structure State32 where
  speed : F32
  angle : F32
  speedlim : F32
  anglelim : F32
deriving DecidableEq

/-- The initial values of the globals, as binary32 values. -/
def init32 : State32 :=
  { speed := F32.finite 0, angle := F32.finite 0,
    speedlim := F32.finite 1, anglelim := F32.finite 20 }

/-- The two limiting `if`s in binary32:
`if (v > lim) v = lim; if (v < -lim) v = -lim;`. -/
def clampTo32 (v lim : F32) : F32 :=
  let v := if flt32 lim v then lim else v
  if flt32 v (fneg32 lim) then fneg32 lim else v

/-- The body of the `speedBindings` block in binary32. -/
def applySpeedUpdate32 (s : State32) (m i : F32) : State32 :=
  { s with speed := clampTo32 (fadd32 (fmul32 m s.speed) i) s.speedlim }

/-- The body of the `angleBindings` block in binary32. -/
def applyAngleUpdate32 (s : State32) (m i : F32) : State32 :=
  { s with angle := clampTo32 (fadd32 (fmul32 m s.angle) i) s.anglelim }

/-- The body of the `limitBindings` block in binary32:
`if (sel) speedlim = speedlim*f; else anglelim = anglelim*f;`, where a
`float` is true unless it is zero. -/
def applyLimitUpdate32 (s : State32) (sel f : F32) : State32 :=
  if sel ≠ F32.finite 0 then { s with speedlim := fmul32 s.speedlim f }
  else { s with anglelim := fmul32 s.anglelim f }

/-- The block `if (speedBindings.count(key) == 1) { ... }` in binary32. -/
def speedBlock32 (s : State32) (key : Char) : State32 :=
  if mapCount speedBindings key = 1 then
    applySpeedUpdate32 s (lit32 (mapAt speedBindings key).1) (lit32 (mapAt speedBindings key).2)
  else s

/-- The block `if (angleBindings.count(key) == 1) { ... }` in binary32. -/
def angleBlock32 (s : State32) (key : Char) : State32 :=
  if mapCount angleBindings key = 1 then
    applyAngleUpdate32 s (lit32 (mapAt angleBindings key).1) (lit32 (mapAt angleBindings key).2)
  else s

/-- The block `if (limitBindings.count(key) == 1) { ... }` in binary32. -/
def limitBlock32 (s : State32) (key : Char) : State32 :=
  if mapCount limitBindings key = 1 then
    applyLimitUpdate32 s (lit32 (mapAt limitBindings key).1) (lit32 (mapAt limitBindings key).2)
  else s

/-- The three blocks of one loop iteration in binary32, in source order. -/
def update32 (s : State32) (key : Char) : State32 :=
  limitBlock32 (angleBlock32 (speedBlock32 s key) key) key

/-- The binary32 motion state after the loop has consumed the inputs, one per
iteration; the loop stops at the first `'q'`. -/
def run32 : State32 → List (Option Char) → State32
  | s, [] => s
  | s, i :: rest =>
    if keyOf i = 'q' then update32 s (keyOf i) else run32 (update32 s (keyOf i)) rest

/-! ## Lemmas on the tables -/

theorem lookup_cons_eq (k key : Char) (v : ℚ × ℚ) (m : Bindings) :
    List.lookup key ((k, v) :: m) = if key = k then some v else List.lookup key m := by
  by_cases h : key = k
  · subst h; simp [List.lookup]
  · have hb : (key == k) = false := by simpa using h
    simp [List.lookup, hb, h]

theorem lookup_speed (key : Char) :
    List.lookup key speedBindings =
      if key = 'A' then some (1, 1/5) else if key = 'B' then some (1, -(1/5))
      else if key = '0' then some (0, 0) else none := by
  unfold speedBindings
  simp only [lookup_cons_eq, List.lookup_nil]

theorem lookup_angle (key : Char) :
    List.lookup key angleBindings =
      if key = 'C' then some (1, -10) else if key = 'D' then some (1, 10)
      else if key = '0' then some (0, 0) else none := by
  unfold angleBindings
  simp only [lookup_cons_eq, List.lookup_nil]

theorem lookup_limit (key : Char) :
    List.lookup key limitBindings =
      if key = 'e' then some (0, 11/10) else if key = 'd' then some (0, 9/10)
      else if key = 'w' then some (1, 11/10) else if key = 's' then some (1, 9/10)
      else none := by
  unfold limitBindings
  simp only [lookup_cons_eq, List.lookup_nil]

theorem mapCount_speed (key : Char) :
    mapCount speedBindings key = 1 ↔ key = 'A' ∨ key = 'B' ∨ key = '0' := by
  simp only [mapCount, lookup_speed]
  split_ifs with hA hB h0 <;> simp [*]

theorem mapCount_angle (key : Char) :
    mapCount angleBindings key = 1 ↔ key = 'C' ∨ key = 'D' ∨ key = '0' := by
  simp only [mapCount, lookup_angle]
  split_ifs with hA hB h0 <;> simp [*]

theorem mapCount_limit (key : Char) :
    mapCount limitBindings key = 1 ↔ key = 'e' ∨ key = 'd' ∨ key = 'w' ∨ key = 's' := by
  simp only [mapCount, lookup_limit]
  split_ifs with he hd hw hs <;> simp [*]

theorem mapCount_le_one (m : Bindings) (key : Char) : mapCount m key ≤ 1 := by
  unfold mapCount
  split <;> simp

/-! ## Lemmas on the limiting `if`s -/

theorem clampTo_abs_le (v lim : ℚ) (h : 0 ≤ lim) : |clampTo v lim| ≤ lim := by
  simp only [clampTo]
  rw [abs_le]
  split_ifs <;> constructor <;> linarith

theorem clampTo_of_abs_le (v lim : ℚ) (h : |v| ≤ lim) : clampTo v lim = v := by
  simp only [clampTo]
  rw [abs_le] at h
  split_ifs <;> linarith [h.1, h.2]

theorem clampTo_eq_max_min (v lim : ℚ) (h : 0 ≤ lim) :
    clampTo v lim = max (-lim) (min v lim) := by
  simp only [clampTo]
  split_ifs with h1 h2 h2
  · linarith
  · rw [min_eq_right (le_of_lt h1), max_eq_right (by linarith)]
  · rw [min_eq_left (by linarith), max_eq_left (le_of_lt h2)]
  · rw [min_eq_left (by linarith), max_eq_right (by linarith)]

/-! ## Lemmas on the key of an iteration -/

theorem keyOf_some (c : Char) : keyOf (some c) = c := by
  simp [keyOf, readKey, kbhit, getch, echoOff, tcsetattr]

theorem keyOf_none : keyOf none = ' ' := by
  simp [keyOf, readKey, kbhit, echoOff, tcsetattr]

theorem readKey_key (t : Termios) (input : Option Char) :
    (readKey t input).2 = keyOf input := by
  cases input <;> simp [keyOf, readKey, kbhit, getch, echoOff, tcsetattr]

/-! ## Lemmas on the three blocks -/

theorem speedBlock_frame (s : State) (key : Char) :
    (speedBlock s key).angle = s.angle ∧ (speedBlock s key).speedlim = s.speedlim
      ∧ (speedBlock s key).anglelim = s.anglelim := by
  unfold speedBlock applySpeedUpdate
  split_ifs <;> simp

theorem angleBlock_frame (s : State) (key : Char) :
    (angleBlock s key).speed = s.speed ∧ (angleBlock s key).speedlim = s.speedlim
      ∧ (angleBlock s key).anglelim = s.anglelim := by
  unfold angleBlock applyAngleUpdate
  split_ifs <;> simp

theorem limitBlock_frame (s : State) (key : Char) :
    (limitBlock s key).speed = s.speed ∧ (limitBlock s key).angle = s.angle := by
  unfold limitBlock applyLimitUpdate
  split_ifs <;> simp

theorem limitBlock_of_not_mem (s : State) (key : Char)
    (h : mapCount limitBindings key ≠ 1) : limitBlock s key = s := by
  simp [limitBlock, h]

theorem speedBlock_of_not_mem (s : State) (key : Char)
    (h : mapCount speedBindings key ≠ 1) : speedBlock s key = s := by
  simp [speedBlock, h]

theorem angleBlock_of_not_mem (s : State) (key : Char)
    (h : mapCount angleBindings key ≠ 1) : angleBlock s key = s := by
  simp [angleBlock, h]

theorem speedBlock_inv (s : State) (key : Char) (h : Inv s) : Inv (speedBlock s key) := by
  obtain ⟨hs, ha, hbs, hba⟩ := h
  unfold speedBlock
  split_ifs
  · exact ⟨hs, ha, clampTo_abs_le _ _ hs, hba⟩
  · exact ⟨hs, ha, hbs, hba⟩

theorem angleBlock_inv (s : State) (key : Char) (h : Inv s) : Inv (angleBlock s key) := by
  obtain ⟨hs, ha, hbs, hba⟩ := h
  unfold angleBlock
  split_ifs
  · exact ⟨hs, ha, hbs, clampTo_abs_le _ _ ha⟩
  · exact ⟨hs, ha, hbs, hba⟩

theorem limitBlock_e (s : State) :
    limitBlock s 'e' = { s with anglelim := s.anglelim * (11/10) } := by
  simp [limitBlock, mapCount, mapAt, lookup_limit, applyLimitUpdate]

theorem limitBlock_d (s : State) :
    limitBlock s 'd' = { s with anglelim := s.anglelim * (9/10) } := by
  simp [limitBlock, mapCount, mapAt, lookup_limit, applyLimitUpdate]

theorem limitBlock_w (s : State) :
    limitBlock s 'w' = { s with speedlim := s.speedlim * (11/10) } := by
  simp [limitBlock, mapCount, mapAt, lookup_limit, applyLimitUpdate]

theorem limitBlock_s (s : State) :
    limitBlock s 's' = { s with speedlim := s.speedlim * (9/10) } := by
  simp [limitBlock, mapCount, mapAt, lookup_limit, applyLimitUpdate]

theorem limitBlock_inv (s : State) (key : Char) (hs : key ≠ 's') (hd : key ≠ 'd')
    (h : Inv s) : Inv (limitBlock s key) := by
  obtain ⟨h1, h2, h3, h4⟩ := h
  by_cases he : key = 'e'
  · subst he
    rw [limitBlock_e]
    exact ⟨h1, by show 0 ≤ s.anglelim * (11/10); linarith, h3,
      by show |s.angle| ≤ s.anglelim * (11/10); linarith⟩
  · by_cases hw : key = 'w'
    · subst hw
      rw [limitBlock_w]
      exact ⟨by show 0 ≤ s.speedlim * (11/10); linarith, h2,
        by show |s.speed| ≤ s.speedlim * (11/10); linarith, h4⟩
    · rw [limitBlock_of_not_mem]
      · exact ⟨h1, h2, h3, h4⟩
      · intro hc
        rcases (mapCount_limit key).1 hc with h | h | h | h <;> contradiction

theorem update_inv (s : State) (key : Char) (hs : key ≠ 's') (hd : key ≠ 'd')
    (h : Inv s) : Inv (update s key) :=
  limitBlock_inv _ key hs hd (angleBlock_inv _ key (speedBlock_inv _ key h))

theorem run_inv (inputs : List (Option Char)) :
    ∀ s : State, (∀ i ∈ inputs, keyOf i ≠ 's' ∧ keyOf i ≠ 'd') → Inv s →
      Inv (run s inputs) := by
  induction inputs with
  | nil => intro s _ h; exact h
  | cons i rest ih =>
    intro s hk h
    have hi := hk i (List.mem_cons_self _ _)
    have hu := update_inv s (keyOf i) hi.1 hi.2 h
    simp only [run]
    split_ifs
    · exact hu
    · exact ih _ (fun j hj => hk j (List.mem_cons_of_mem _ hj)) hu

theorem run_append_singleton (inputs : List (Option Char)) (i : Option Char) :
    ∀ s : State, (∀ j ∈ inputs, keyOf j ≠ 'q') →
      run s (inputs ++ [i]) = update (run s inputs) (keyOf i) := by
  induction inputs with
  | nil => intro s _; simp [run]
  | cons j rest ih =>
    intro s hq
    have hj := hq j (List.mem_cons_self _ _)
    simp only [List.cons_append, run, hj, if_false]
    exact ih _ (fun l hl => hq l (List.mem_cons_of_mem _ hl))

theorem init_inv : Inv init := by
  simp [Inv, Bounded, init]

theorem run_five_A_then_s :
    run init [some 'A', some 'A', some 'A', some 'A', some 'A', some 's']
      = { speed := 1, angle := 0, speedlim := 9/10, anglelim := 20 } := by
  simp [run, keyOf_some, update, speedBlock, angleBlock, limitBlock, mapCount, mapAt,
    lookup_speed, lookup_angle, lookup_limit, applySpeedUpdate, applyLimitUpdate,
    clampTo, init]
  norm_num

theorem update_limits_frame (s : State) (key : Char)
    (h : mapCount limitBindings key ≠ 1) :
    (update s key).speedlim = s.speedlim ∧ (update s key).anglelim = s.anglelim := by
  unfold update
  rw [limitBlock_of_not_mem _ _ h]
  exact ⟨(angleBlock_frame _ key).2.1.trans (speedBlock_frame s key).2.1,
    (angleBlock_frame _ key).2.2.trans (speedBlock_frame s key).2.2⟩

theorem update_speed_of_mem (s : State) (key : Char)
    (h : mapCount speedBindings key = 1) :
    (update s key).speed
      = clampTo ((mapAt speedBindings key).1 * s.speed + (mapAt speedBindings key).2)
          s.speedlim := by
  unfold update
  rw [(limitBlock_frame _ key).1, (angleBlock_frame _ key).1]
  simp [speedBlock, h, applySpeedUpdate]

theorem update_angle_of_mem (s : State) (key : Char)
    (h : mapCount angleBindings key = 1) :
    (update s key).angle
      = clampTo ((mapAt angleBindings key).1 * s.angle + (mapAt angleBindings key).2)
          s.anglelim := by
  unfold update
  rw [(limitBlock_frame _ key).2]
  simp only [angleBlock, h, if_true, applyAngleUpdate]
  rw [(speedBlock_frame s key).1, (speedBlock_frame s key).2.2]

theorem run_limits_frame (inputs : List (Option Char)) :
    ∀ s : State, (∀ i ∈ inputs, mapCount limitBindings (keyOf i) ≠ 1) →
      (run s inputs).speedlim = s.speedlim ∧ (run s inputs).anglelim = s.anglelim := by
  induction inputs with
  | nil => intro s _; exact ⟨rfl, rfl⟩
  | cons i rest ih =>
    intro s hk
    have hu := update_limits_frame s (keyOf i) (hk i (List.mem_cons_self _ _))
    simp only [run]
    split_ifs
    · exact hu
    · have hr := ih (update s (keyOf i)) (fun j hj => hk j (List.mem_cons_of_mem _ hj))
      exact ⟨hr.1.trans hu.1, hr.2.trans hu.2⟩

theorem speed_key_facts (c : Char) (h : mapCount speedBindings c = 1) :
    c ≠ 'q' ∧ mapCount limitBindings c ≠ 1 := by
  rcases (mapCount_speed c).1 h with h | h | h <;> subst h <;>
    exact ⟨by decide, fun hc => by
      rcases (mapCount_limit _).1 hc with h | h | h | h <;> exact absurd h (by decide)⟩

theorem angle_key_facts (c : Char) (h : mapCount angleBindings c = 1) :
    c ≠ 'q' ∧ mapCount limitBindings c ≠ 1 := by
  rcases (mapCount_angle c).1 h with h | h | h <;> subst h <;>
    exact ⟨by decide, fun hc => by
      rcases (mapCount_limit _).1 hc with h | h | h | h <;> exact absurd h (by decide)⟩

/-- After a run over keys that are in no limit table and are not `'q'`, one
more tick with a key of the speed table leaves the limited speed. -/
theorem run_then_speed_key (s : State) (ks : List Char) (k : Char)
    (hks : ∀ c ∈ ks, c ≠ 'q' ∧ mapCount limitBindings c ≠ 1)
    (hk : mapCount speedBindings k = 1) :
    (run s ((ks ++ [k]).map some)).speed
        = clampTo ((mapAt speedBindings k).1 * (run s (ks.map some)).speed
            + (mapAt speedBindings k).2) s.speedlim
      ∧ (run s ((ks ++ [k]).map some)).speedlim = s.speedlim := by
  have hq : ∀ j ∈ ks.map some, keyOf j ≠ 'q' := by
    intro j hj
    obtain ⟨c, hc, rfl⟩ := List.mem_map.1 hj
    rw [keyOf_some]; exact (hks c hc).1
  have hl : ∀ j ∈ ks.map some, mapCount limitBindings (keyOf j) ≠ 1 := by
    intro j hj
    obtain ⟨c, hc, rfl⟩ := List.mem_map.1 hj
    rw [keyOf_some]; exact (hks c hc).2
  have hlim := run_limits_frame (ks.map some) s hl
  rw [List.map_append, List.map_singleton, run_append_singleton _ _ s hq, keyOf_some,
    update_speed_of_mem _ _ hk, (update_limits_frame _ k (speed_key_facts k hk).2).1,
    hlim.1]
  exact ⟨rfl, rfl⟩

/-- The angle counterpart of `run_then_speed_key`. -/
theorem run_then_angle_key (s : State) (ks : List Char) (k : Char)
    (hks : ∀ c ∈ ks, c ≠ 'q' ∧ mapCount limitBindings c ≠ 1)
    (hk : mapCount angleBindings k = 1) :
    (run s ((ks ++ [k]).map some)).angle
        = clampTo ((mapAt angleBindings k).1 * (run s (ks.map some)).angle
            + (mapAt angleBindings k).2) s.anglelim
      ∧ (run s ((ks ++ [k]).map some)).anglelim = s.anglelim := by
  have hq : ∀ j ∈ ks.map some, keyOf j ≠ 'q' := by
    intro j hj
    obtain ⟨c, hc, rfl⟩ := List.mem_map.1 hj
    rw [keyOf_some]; exact (hks c hc).1
  have hl : ∀ j ∈ ks.map some, mapCount limitBindings (keyOf j) ≠ 1 := by
    intro j hj
    obtain ⟨c, hc, rfl⟩ := List.mem_map.1 hj
    rw [keyOf_some]; exact (hks c hc).2
  have hlim := run_limits_frame (ks.map some) s hl
  rw [List.map_append, List.map_singleton, run_append_singleton _ _ s hq, keyOf_some,
    update_angle_of_mem _ _ hk, (update_limits_frame _ k (angle_key_facts k hk).2).2,
    hlim.2]
  exact ⟨rfl, rfl⟩

/-! ## C1: the limits as an invariant of the loop -/

/-- C1: the invariant is not kept by the code. Five ticks with `'A'` bring the
speed to the limit 1; a tick with `'s'` then lowers the speed limit to 9/10
and does not limit the speed again, so a state with `|speed| > speedlim` is
reachable from the initial state with table keys only. -/
theorem lowering_limit_breaks_bound :
    run init [some 'A', some 'A', some 'A', some 'A', some 'A', some 's']
        = { speed := 1, angle := 0, speedlim := 9/10, anglelim := 20 }
      ∧ (∀ i ∈ [some 'A', some 'A', some 'A', some 'A', some 'A', some 's'],
          i ∈ tableInputs)
      ∧ ¬ Bounded (run init [some 'A', some 'A', some 'A', some 'A', some 'A', some 's']) := by
  refine ⟨run_five_A_then_s, by simp [tableInputs], ?_⟩
  rw [run_five_A_then_s]
  intro hb
  have h1 := hb.1
  norm_num [abs_le] at h1

/-- What does hold for the loop: in every state reachable from the initial
state by ticks whose symbols are not the limit-lowering keys `'s'` and `'d'`
(any other key, or no key), both magnitudes are within their limits. -/
theorem bounded_reachable_without_lowering (inputs : List (Option Char))
    (h : ∀ i ∈ inputs, i ≠ some 's' ∧ i ≠ some 'd') :
    Bounded (run init inputs) := by
  have hk : ∀ i ∈ inputs, keyOf i ≠ 's' ∧ keyOf i ≠ 'd' := by
    intro i hi
    cases i with
    | none => rw [keyOf_none]; exact ⟨by decide, by decide⟩
    | some c =>
      rw [keyOf_some]
      exact ⟨fun hc => (h _ hi).1 (by rw [hc]), fun hc => (h _ hi).2 (by rw [hc])⟩
  exact (run_inv inputs init hk init_inv).2.2

/-- A run with speed, angle and limit-raising keys and an idle tick. -/
theorem bounded_reachable_without_lowering_witness :
    (∀ i ∈ [some 'A', some 'w', none, some 'D', some 'e', some '0'],
        i ≠ some 's' ∧ i ≠ some 'd')
      ∧ Bounded (run init [some 'A', some 'w', none, some 'D', some 'e', some '0']) :=
  ⟨by decide, bounded_reachable_without_lowering _ (by decide)⟩

/-! ## C2: the speed and angle updates stay within the limits -/

/-- C2: from any state with `speedlim > 0`, after any finite sequence of ticks
with keys of the speed table, each update sets
`speed = clamp(m * speed + i, -speedlim, +speedlim)` for the table entry
`(m, i)`, leaves the speed limit as it was, and so `|speed| ≤ speedlim`
whatever the prior speed; likewise for the keys of the angle table against
`anglelim > 0`. -/
theorem table_updates_stay_bounded (s : State) (ks : List Char) (k : Char) :
    (0 < s.speedlim → (∀ c ∈ ks, mapCount speedBindings c = 1) →
        mapCount speedBindings k = 1 →
        (run s ((ks ++ [k]).map some)).speed
            = max (-s.speedlim)
                (min ((mapAt speedBindings k).1 * (run s (ks.map some)).speed
                  + (mapAt speedBindings k).2) s.speedlim)
          ∧ (run s ((ks ++ [k]).map some)).speedlim = s.speedlim
          ∧ |(run s ((ks ++ [k]).map some)).speed|
              ≤ (run s ((ks ++ [k]).map some)).speedlim)
    ∧ (0 < s.anglelim → (∀ c ∈ ks, mapCount angleBindings c = 1) →
        mapCount angleBindings k = 1 →
        (run s ((ks ++ [k]).map some)).angle
            = max (-s.anglelim)
                (min ((mapAt angleBindings k).1 * (run s (ks.map some)).angle
                  + (mapAt angleBindings k).2) s.anglelim)
          ∧ (run s ((ks ++ [k]).map some)).anglelim = s.anglelim
          ∧ |(run s ((ks ++ [k]).map some)).angle|
              ≤ (run s ((ks ++ [k]).map some)).anglelim) := by
  constructor
  · intro hpos hks hk
    obtain ⟨h1, h2⟩ := run_then_speed_key s ks k (fun c hc => speed_key_facts c (hks c hc)) hk
    refine ⟨?_, h2, ?_⟩
    · rw [h1, clampTo_eq_max_min _ _ hpos.le]
    · rw [h1, h2]; exact clampTo_abs_le _ _ hpos.le
  · intro hpos hks hk
    obtain ⟨h1, h2⟩ := run_then_angle_key s ks k (fun c hc => angle_key_facts c (hks c hc)) hk
    refine ⟨?_, h2, ?_⟩
    · rw [h1, clampTo_eq_max_min _ _ hpos.le]
    · rw [h1, h2]; exact clampTo_abs_le _ _ hpos.le

/-- From speed 5 and angle -40 under the limits 1 and 20: the keys `A`, `B`,
`A` and the keys `C`, `D`. -/
theorem table_updates_stay_bounded_witness :
    (0 < (⟨5, -40, 1, 20⟩ : State).speedlim
      ∧ (∀ c ∈ ['A', 'B'], mapCount speedBindings c = 1)
      ∧ mapCount speedBindings 'A' = 1
      ∧ |(run ⟨5, -40, 1, 20⟩ ((['A', 'B'] ++ ['A']).map some)).speed|
          ≤ (run ⟨5, -40, 1, 20⟩ ((['A', 'B'] ++ ['A']).map some)).speedlim)
    ∧ (0 < (⟨5, -40, 1, 20⟩ : State).anglelim
      ∧ (∀ c ∈ ['C'], mapCount angleBindings c = 1)
      ∧ mapCount angleBindings 'D' = 1
      ∧ |(run ⟨5, -40, 1, 20⟩ ((['C'] ++ ['D']).map some)).angle|
          ≤ (run ⟨5, -40, 1, 20⟩ ((['C'] ++ ['D']).map some)).anglelim) :=
  ⟨⟨by norm_num, by simp [mapCount_speed], by simp [mapCount_speed],
      ((table_updates_stay_bounded ⟨5, -40, 1, 20⟩ ['A', 'B'] 'A').1 (by norm_num)
        (by simp [mapCount_speed]) (by simp [mapCount_speed])).2.2⟩,
    ⟨by norm_num, by simp [mapCount_angle], by simp [mapCount_angle],
      ((table_updates_stay_bounded ⟨5, -40, 1, 20⟩ ['C'] 'D').2 (by norm_num)
        (by simp [mapCount_angle]) (by simp [mapCount_angle])).2.2⟩⟩

/-! ## C3: the emitted velocity command -/

theorem tick_state (t : Termios) (s : State) (input : Option Char) :
    (tick t s input).state = update s (keyOf input) := by
  unfold tick
  simp only [readKey_key]
  split_ifs <;> rfl

theorem tick_published (t : Termios) (s : State) (input : Option Char) :
    (tick t s input).published
      = if keyOf input = 'q' then none else some (twistOf (update s (keyOf input))) := by
  unfold tick
  simp only [readKey_key]
  split_ifs <;> rfl

theorem tick_exited (t : Termios) (s : State) (input : Option Char) :
    (tick t s input).exited = decide (keyOf input = 'q') := by
  unfold tick
  simp only [readKey_key]
  split_ifs with h <;> simp [h]

theorem keyOf_eq_q (input : Option Char) : keyOf input = 'q' ↔ input = some 'q' := by
  cases input with
  | none => rw [keyOf_none]; simp
  | some c => rw [keyOf_some]; simp

/-- C3: the Twist message built from a state is linear = (speed, 0, 0) and
angular = (0, 0, speed * tan(angle * pi / 180) / 0.7); every tick that does
not quit publishes exactly this message for the state it has just updated;
and for speed = 1, angle = 0 the message is linear.x = 1 with every other
component 0. -/
theorem twist_command (t : Termios) (s : State) (input : Option Char) :
    twistOf s
        = { linear := { x := (s.speed : ℝ), y := 0, z := 0 }
            angular :=
              { x := 0, y := 0
                z := (s.speed : ℝ) * Real.tan ((s.angle : ℝ) * Real.pi / 180) / 0.7 } }
      ∧ (input ≠ some 'q' →
          (tick t s input).published = some (twistOf (tick t s input).state))
      ∧ ∀ speedlim anglelim : ℚ,
          twistOf { speed := 1, angle := 0, speedlim := speedlim, anglelim := anglelim }
            = { linear := { x := 1, y := 0, z := 0 }
                angular := { x := 0, y := 0, z := 0 } } := by
  refine ⟨?_, ?_, ?_⟩
  · simp only [twistOf, H]
    norm_num
  · intro hq
    have hk : keyOf input ≠ 'q' := fun h => hq ((keyOf_eq_q input).1 h)
    rw [tick_published, tick_state, if_neg hk]
  · intro sl al
    simp [twistOf]

/-- A tick with the key `'A'` from the initial state. -/
theorem twist_command_witness :
    some 'A' ≠ some 'q'
      ∧ (tick ⟨true, true, 1, 0⟩ init (some 'A')).published
          = some (twistOf (tick ⟨true, true, 1, 0⟩ init (some 'A')).state) :=
  ⟨by decide, (twist_command ⟨true, true, 1, 0⟩ init (some 'A')).2.1 (by decide)⟩

/-! ## C4: which tables contain a symbol -/

theorem tables_zero : tablesContaining '0' = 2 ∧ firedCount '0' = 2 := by
  have h1 : mapCount speedBindings '0' = 1 := (mapCount_speed _).2 (by simp)
  have h2 : mapCount angleBindings '0' = 1 := (mapCount_angle _).2 (by simp)
  have h3 : mapCount limitBindings '0' = 0 := by
    have := mapCount_le_one limitBindings '0'
    have hne : mapCount limitBindings '0' ≠ 1 := fun hc => by
      rcases (mapCount_limit _).1 hc with h | h | h | h <;> exact absurd h (by decide)
    omega
  simp [tablesContaining, firedCount, h1, h2, h3]

/-- C4, as stated, fails: the symbol `'0'` is in the speed table and in the
angle table, and both the speed block and the angle block run for it. -/
theorem one_table_per_symbol_fails :
    ¬ ∀ key : Char, tablesContaining key ≤ 1 ∧ firedCount key ≤ 1 := by
  intro h
  have h0 := (h '0').1
  rw [tables_zero.1] at h0
  omega

/-- C4, amended: every symbol other than `'0'` is in at most one of the three
tables and at most one of the three blocks runs for it; the symbol `'0'` is in
exactly the speed and the angle table and exactly those two blocks run for
it. -/
theorem one_table_per_symbol_except_reset (key : Char) :
    (key ≠ '0' → tablesContaining key ≤ 1 ∧ firedCount key ≤ 1)
      ∧ mapCount speedBindings '0' = 1 ∧ mapCount angleBindings '0' = 1
      ∧ mapCount limitBindings '0' = 0
      ∧ tablesContaining '0' = 2 ∧ firedCount '0' = 2 := by
  refine ⟨?_, (mapCount_speed _).2 (by simp), (mapCount_angle _).2 (by simp), ?_,
    tables_zero.1, tables_zero.2⟩
  · intro h0
    have hs := mapCount_speed key
    have ha := mapCount_angle key
    have hl := mapCount_limit key
    have hs1 := mapCount_le_one speedBindings key
    have ha1 := mapCount_le_one angleBindings key
    have hl1 := mapCount_le_one limitBindings key
    have hsa : ¬ (mapCount speedBindings key = 1 ∧ mapCount angleBindings key = 1) := by
      rintro ⟨h1, h2⟩
      rcases hs.1 h1 with h | h | h <;> rcases ha.1 h2 with h' | h' | h' <;>
        first
          | exact h0 h
          | exact h0 h'
          | (rw [h] at h'; exact absurd h' (by decide))
    have hsl : ¬ (mapCount speedBindings key = 1 ∧ mapCount limitBindings key = 1) := by
      rintro ⟨h1, h2⟩
      exact (speed_key_facts key h1).2 h2
    have hal : ¬ (mapCount angleBindings key = 1 ∧ mapCount limitBindings key = 1) := by
      rintro ⟨h1, h2⟩
      exact (angle_key_facts key h1).2 h2
    unfold tablesContaining firedCount
    constructor
    · omega
    · split_ifs <;> simp_all
  · have := mapCount_le_one limitBindings '0'
    have hne : mapCount limitBindings '0' ≠ 1 := fun hc => by
      rcases (mapCount_limit _).1 hc with h | h | h | h <;> exact absurd h (by decide)
    omega

/-- The key `'A'` is in the speed table only. -/
theorem one_table_per_symbol_except_reset_witness :
    'A' ≠ '0' ∧ tablesContaining 'A' ≤ 1 ∧ firedCount 'A' ≤ 1 :=
  ⟨by decide, (one_table_per_symbol_except_reset 'A').1 (by decide)⟩

/-! ## The reset symbol on the speed table -/

theorem update_zero_speed (s : State) :
    (update s '0').speed = clampTo 0 s.speedlim := by
  rw [update_speed_of_mem s '0' ((mapCount_speed _).2 (by simp))]
  simp [mapAt, lookup_speed]

/-! ## C6: the quit symbol -/

theorem update_of_no_table (s : State) (key : Char)
    (hs : mapCount speedBindings key ≠ 1) (ha : mapCount angleBindings key ≠ 1)
    (hl : mapCount limitBindings key ≠ 1) : update s key = s := by
  unfold update
  rw [speedBlock_of_not_mem s key hs, angleBlock_of_not_mem s key ha,
    limitBlock_of_not_mem s key hl]

theorem q_in_no_table :
    mapCount speedBindings 'q' ≠ 1 ∧ mapCount angleBindings 'q' ≠ 1
      ∧ mapCount limitBindings 'q' ≠ 1 := by
  refine ⟨fun hc => ?_, fun hc => ?_, fun hc => ?_⟩
  · rcases (mapCount_speed _).1 hc with h | h | h <;> exact absurd h (by decide)
  · rcases (mapCount_angle _).1 hc with h | h | h <;> exact absurd h (by decide)
  · rcases (mapCount_limit _).1 hc with h | h | h | h <;> exact absurd h (by decide)

theorem space_in_no_table :
    mapCount speedBindings ' ' ≠ 1 ∧ mapCount angleBindings ' ' ≠ 1
      ∧ mapCount limitBindings ' ' ≠ 1 := by
  refine ⟨fun hc => ?_, fun hc => ?_, fun hc => ?_⟩
  · rcases (mapCount_speed _).1 hc with h | h | h <;> exact absurd h (by decide)
  · rcases (mapCount_angle _).1 hc with h | h | h <;> exact absurd h (by decide)
  · rcases (mapCount_limit _).1 hc with h | h | h | h <;> exact absurd h (by decide)

/-- C6: a tick leaves the loop exactly when its input symbol is `'q'`; a tick
with `'q'` leaves speed, angle and both limits as they were, publishes no
message, and ends with the `ECHO` bit of the terminal set. -/
theorem quit_tick (t : Termios) (s : State) (input : Option Char) :
    ((tick t s input).exited = true ↔ input = some 'q')
      ∧ (tick t s (some 'q')).state = s
      ∧ (tick t s (some 'q')).published = none
      ∧ (tick t s (some 'q')).term.echo = true := by
  refine ⟨?_, ?_, ?_, ?_⟩
  · rw [tick_exited, decide_eq_true_iff, keyOf_eq_q]
  · rw [tick_state, keyOf_some]
    exact update_of_no_table s 'q' q_in_no_table.1 q_in_no_table.2.1 q_in_no_table.2.2
  · rw [tick_published, keyOf_some, if_pos rfl]
  · simp [tick, readKey, kbhit, getch, echoOff, echoOn, tcsetattr]

/-! ## The keys of the limit table -/

theorem update_of_limit_key (s : State) (key : Char)
    (h : mapCount limitBindings key = 1) : update s key = limitBlock s key := by
  have hs : mapCount speedBindings key ≠ 1 := fun hc => (speed_key_facts key hc).2 h
  have ha : mapCount angleBindings key ≠ 1 := fun hc => (angle_key_facts key hc).2 h
  unfold update
  rw [speedBlock_of_not_mem s key hs, angleBlock_of_not_mem s key ha]

/-! ## C9: ticks without a bound key -/

/-- C9: a tick with no key available, or with a symbol that is in none of the
three tables and is not `'q'`, leaves the motion state as it was, does not
leave the loop, and publishes one message, the one computed from that
unchanged state. -/
theorem idle_tick_holds_command (t : Termios) (s : State) (input : Option Char)
    (h : input = none ∨ ∃ c, input = some c ∧ mapCount speedBindings c ≠ 1
      ∧ mapCount angleBindings c ≠ 1 ∧ mapCount limitBindings c ≠ 1 ∧ c ≠ 'q') :
    (tick t s input).state = s
      ∧ (tick t s input).published = some (twistOf s)
      ∧ (tick t s input).exited = false := by
  have hk : update s (keyOf input) = s ∧ keyOf input ≠ 'q' := by
    rcases h with h | ⟨c, hc, h1, h2, h3, h4⟩
    · subst h
      rw [keyOf_none]
      exact ⟨update_of_no_table s ' ' space_in_no_table.1 space_in_no_table.2.1
        space_in_no_table.2.2, by decide⟩
    · subst hc
      rw [keyOf_some]
      exact ⟨update_of_no_table s c h1 h2 h3, h4⟩
  refine ⟨?_, ?_, ?_⟩
  · rw [tick_state, hk.1]
  · rw [tick_published, if_neg hk.2, hk.1]
  · rw [tick_exited]
    simp [hk.2]

/-- An idle tick and a tick with the unbound key `'x'` while moving. -/
theorem idle_tick_holds_command_witness :
    ((tick ⟨true, true, 1, 0⟩ ⟨3/5, -10, 1, 20⟩ none).state = ⟨3/5, -10, 1, 20⟩
        ∧ (tick ⟨true, true, 1, 0⟩ ⟨3/5, -10, 1, 20⟩ none).published
            = some (twistOf ⟨3/5, -10, 1, 20⟩)
        ∧ (tick ⟨true, true, 1, 0⟩ ⟨3/5, -10, 1, 20⟩ none).exited = false)
      ∧ ((tick ⟨true, true, 1, 0⟩ ⟨3/5, -10, 1, 20⟩ (some 'x')).state = ⟨3/5, -10, 1, 20⟩
        ∧ (tick ⟨true, true, 1, 0⟩ ⟨3/5, -10, 1, 20⟩ (some 'x')).published
            = some (twistOf ⟨3/5, -10, 1, 20⟩)
        ∧ (tick ⟨true, true, 1, 0⟩ ⟨3/5, -10, 1, 20⟩ (some 'x')).exited = false) :=
  ⟨idle_tick_holds_command _ _ none (Or.inl rfl),
    idle_tick_holds_command _ _ (some 'x')
      (Or.inr ⟨'x', rfl, by simp [mapCount_speed], by simp [mapCount_angle],
        by simp [mapCount_limit], by decide⟩)⟩

/-! ## C10: repeated speed increase -/

theorem clampTo_step_up (n : ℕ) :
    clampTo (1 * min ((1/5 : ℚ) * n) 1 + 1/5) 1 = min ((1/5 : ℚ) * (n + 1 : ℕ)) 1 := by
  have hn : (0 : ℚ) ≤ n := Nat.cast_nonneg n
  push_cast
  by_cases h4 : (n : ℚ) ≤ 4
  · rw [min_eq_left (by linarith), min_eq_left (by linarith)]
    rw [clampTo_of_abs_le _ _ (by rw [abs_le]; constructor <;> linarith)]
    ring
  · have h4 : (4 : ℚ) < n := lt_of_not_le h4
    have h5 : (5 : ℚ) ≤ n := by exact_mod_cast (show 5 ≤ n by exact_mod_cast h4)
    rw [min_eq_right (by linarith), min_eq_right (by linarith)]
    simp only [clampTo]
    norm_num

/-- C10: from speed 0 under the speed limit 1, `n` ticks with `'A'` (entry
(1, 0.2)) give speed = min(0.2 * n, 1) for every `n`; the first six speeds are
0.2, 0.4, 0.6, 0.8, 1, 1. -/
theorem repeated_increase (n : ℕ) (angle anglelim : ℚ) :
    (run ⟨0, angle, 1, anglelim⟩ (List.replicate n (some 'A'))).speed
        = min ((1/5 : ℚ) * n) 1
      ∧ (List.range 6).map
          (fun k => (run ⟨0, angle, 1, anglelim⟩ (List.replicate (k + 1) (some 'A'))).speed)
        = [1/5, 2/5, 3/5, 4/5, 1, 1] := by
  have hA : mapCount speedBindings 'A' = 1 := (mapCount_speed _).2 (by simp)
  have hentry : mapAt speedBindings 'A' = (1, 1/5) := by simp [mapAt, lookup_speed]
  have key : ∀ m : ℕ,
      (run ⟨0, angle, 1, anglelim⟩ (List.replicate m (some 'A'))).speed
        = min ((1/5 : ℚ) * m) 1 := by
    intro m
    induction m with
    | zero => simp [run]
    | succ m ih =>
      have h := (run_then_speed_key ⟨0, angle, 1, anglelim⟩ (List.replicate m 'A') 'A'
        (fun c hc => by
          rw [List.eq_of_mem_replicate hc]
          exact speed_key_facts 'A' hA) hA).1
      rw [List.map_append, List.map_replicate, List.map_singleton,
        ← List.replicate_succ'] at h
      rw [h, ih, hentry]
      exact clampTo_step_up m
  refine ⟨key n, ?_⟩
  simp only [List.range, List.range.loop, List.map, key]
  norm_num

/-! ## C11: repeated angle decrease -/

theorem clampTo_step_down (n : ℕ) :
    clampTo (1 * max (-10 * (n : ℚ)) (-20) + -10) 20 = max (-10 * ((n + 1 : ℕ) : ℚ)) (-20) := by
  have hn : (0 : ℚ) ≤ n := Nat.cast_nonneg n
  push_cast
  by_cases h1 : (n : ℚ) ≤ 1
  · rw [max_eq_left (by linarith), max_eq_left (by linarith)]
    rw [clampTo_of_abs_le _ _ (by rw [abs_le]; constructor <;> linarith)]
    ring
  · have h1 : (1 : ℚ) < n := lt_of_not_le h1
    have h2 : (2 : ℚ) ≤ n := by exact_mod_cast (show 2 ≤ n by exact_mod_cast h1)
    rw [max_eq_right (by linarith), max_eq_right (by linarith)]
    simp only [clampTo]
    norm_num

/-- C11: from angle 0 under the angle limit 20, `n` ticks with `'C'` (entry
(1, -10)) give angle = max(-10 * n, -20) for every `n`; the first three angles
are -10, -20, -20. -/
theorem repeated_decrease (n : ℕ) (speed speedlim : ℚ) :
    (run ⟨speed, 0, speedlim, 20⟩ (List.replicate n (some 'C'))).angle
        = max (-10 * (n : ℚ)) (-20)
      ∧ (List.range 3).map
          (fun k => (run ⟨speed, 0, speedlim, 20⟩ (List.replicate (k + 1) (some 'C'))).angle)
        = [-10, -20, -20] := by
  have hC : mapCount angleBindings 'C' = 1 := (mapCount_angle _).2 (by simp)
  have hentry : mapAt angleBindings 'C' = (1, -10) := by simp [mapAt, lookup_angle]
  have key : ∀ m : ℕ,
      (run ⟨speed, 0, speedlim, 20⟩ (List.replicate m (some 'C'))).angle
        = max (-10 * (m : ℚ)) (-20) := by
    intro m
    induction m with
    | zero => simp [run]
    | succ m ih =>
      have h := (run_then_angle_key ⟨speed, 0, speedlim, 20⟩ (List.replicate m 'C') 'C'
        (fun c hc => by
          rw [List.eq_of_mem_replicate hc]
          exact angle_key_facts 'C' hC) hC).1
      rw [List.map_append, List.map_replicate, List.map_singleton,
        ← List.replicate_succ'] at h
      rw [h, ih, hentry]
      exact clampTo_step_down m
  refine ⟨key n, ?_⟩
  simp only [List.range, List.range.loop, List.map, key]
  norm_num

/-! ## C12: the command depends on speed and angle only -/

theorem twistOf_congr (s₁ s₂ : State) (hs : s₁.speed = s₂.speed)
    (ha : s₁.angle = s₂.angle) : twistOf s₁ = twistOf s₂ := by
  simp only [twistOf, hs, ha]

/-- C12: two motion states with the same speed and the same angle give the
same Twist message, whatever their limits; two ticks that do not quit and end
in states with the same speed and angle publish the same message, whatever
their keys, limits and terminals; and two idle ticks in a row publish the same
message twice. -/
theorem command_of_speed_angle_only (t₁ t₂ : Termios) (s₁ s₂ : State)
    (i₁ i₂ : Option Char) :
    (s₁.speed = s₂.speed → s₁.angle = s₂.angle → twistOf s₁ = twistOf s₂)
      ∧ (i₁ ≠ some 'q' → i₂ ≠ some 'q' →
          (tick t₁ s₁ i₁).state.speed = (tick t₂ s₂ i₂).state.speed →
          (tick t₁ s₁ i₁).state.angle = (tick t₂ s₂ i₂).state.angle →
          (tick t₁ s₁ i₁).published = (tick t₂ s₂ i₂).published)
      ∧ (tick t₂ (tick t₁ s₁ none).state none).published = (tick t₁ s₁ none).published
      ∧ (tick t₁ s₁ none).published = some (twistOf s₁) := by
  have hidle : ∀ s : State, update s (keyOf none) = s := by
    intro s
    rw [keyOf_none]
    exact update_of_no_table s ' ' space_in_no_table.1 space_in_no_table.2.1
      space_in_no_table.2.2
  have hnq : keyOf none ≠ 'q' := by rw [keyOf_none]; decide
  refine ⟨twistOf_congr s₁ s₂, ?_, ?_, ?_⟩
  · intro h1 h2 hs ha
    have hk1 : keyOf i₁ ≠ 'q' := fun h => h1 ((keyOf_eq_q i₁).1 h)
    have hk2 : keyOf i₂ ≠ 'q' := fun h => h2 ((keyOf_eq_q i₂).1 h)
    rw [tick_state, tick_state] at hs ha
    rw [tick_published, tick_published, if_neg hk1, if_neg hk2,
      twistOf_congr _ _ hs ha]
  · simp only [tick_published, tick_state, if_neg hnq, hidle]
  · simp only [tick_published, if_neg hnq, hidle]

/-- The states (3/5, -10) under the limits (1, 20) and (2, 30): their
messages agree, also when published by ticks with the unbound keys `'x'` and
no key. -/
theorem command_of_speed_angle_only_witness :
    twistOf ⟨3/5, -10, 1, 20⟩ = twistOf ⟨3/5, -10, 2, 30⟩
      ∧ (tick ⟨true, true, 1, 0⟩ ⟨2/5, -10, 1, 20⟩ (some 'A')).published
          = (tick ⟨false, false, 1, 0⟩ ⟨3/5, 0, 2, 30⟩ (some 'C')).published :=
  ⟨(command_of_speed_angle_only ⟨true, true, 1, 0⟩ ⟨true, true, 1, 0⟩
      ⟨3/5, -10, 1, 20⟩ ⟨3/5, -10, 2, 30⟩ none none).1 rfl rfl,
    (command_of_speed_angle_only ⟨true, true, 1, 0⟩ ⟨false, false, 1, 0⟩
      ⟨2/5, -10, 1, 20⟩ ⟨3/5, 0, 2, 30⟩ (some 'A') (some 'C')).2.1
      (by decide) (by decide)
      (by
        simp only [tick_state, keyOf_some]
        simp [update, speedBlock, angleBlock, limitBlock, mapCount, mapAt, lookup_speed,
          lookup_angle, lookup_limit, applySpeedUpdate, applyAngleUpdate, clampTo]
        norm_num)
      (by
        simp only [tick_state, keyOf_some]
        simp [update, speedBlock, angleBlock, limitBlock, mapCount, mapAt, lookup_speed,
          lookup_angle, lookup_limit, applySpeedUpdate, applyAngleUpdate, clampTo]
        norm_num)⟩

/-! ## C14: the limits stay positive -/

theorem limitBlock_limits (s : State) (key : Char) :
    (limitBlock s key).speedlim
        = (if key = 'w' then s.speedlim * (11/10)
            else if key = 's' then s.speedlim * (9/10) else s.speedlim)
      ∧ (limitBlock s key).anglelim
        = (if key = 'e' then s.anglelim * (11/10)
            else if key = 'd' then s.anglelim * (9/10) else s.anglelim) := by
  by_cases he : key = 'e'
  · subst he; rw [limitBlock_e]; simp
  · by_cases hd : key = 'd'
    · subst hd; rw [limitBlock_d]; simp
    · by_cases hw : key = 'w'
      · subst hw; rw [limitBlock_w]; simp
      · by_cases hs : key = 's'
        · subst hs; rw [limitBlock_s]; simp
        · rw [limitBlock_of_not_mem s key (fun hc => by
            rcases (mapCount_limit key).1 hc with h | h | h | h <;> contradiction)]
          simp [he, hd, hw, hs]

theorem update_limits (s : State) (key : Char) :
    (update s key).speedlim
        = (if key = 'w' then s.speedlim * (11/10)
            else if key = 's' then s.speedlim * (9/10) else s.speedlim)
      ∧ (update s key).anglelim
        = (if key = 'e' then s.anglelim * (11/10)
            else if key = 'd' then s.anglelim * (9/10) else s.anglelim) := by
  unfold update
  have h := limitBlock_limits (angleBlock (speedBlock s key) key) key
  rw [(angleBlock_frame _ key).2.1, (angleBlock_frame _ key).2.2,
    (speedBlock_frame s key).2.1, (speedBlock_frame s key).2.2] at h
  exact h

theorem update_limits_pos (s : State) (key : Char)
    (h : 0 < s.speedlim ∧ 0 < s.anglelim) :
    0 < (update s key).speedlim ∧ 0 < (update s key).anglelim := by
  rw [(update_limits s key).1, (update_limits s key).2]
  constructor
  · split_ifs <;> linarith [h.1]
  · split_ifs <;> linarith [h.2]

theorem run_limits_pos (inputs : List (Option Char)) :
    ∀ s : State, 0 < s.speedlim ∧ 0 < s.anglelim →
      0 < (run s inputs).speedlim ∧ 0 < (run s inputs).anglelim := by
  induction inputs with
  | nil => intro s h; exact h
  | cons i rest ih =>
    intro s h
    have hu := update_limits_pos s (keyOf i) h
    simp only [run]
    split_ifs
    · exact hu
    · exact ih _ hu

/-- C14: in every state reachable from the initial state by any finite
sequence of ticks, `speedlim > 0` and `anglelim > 0`; a tick changes a limit
only by multiplying it by 1.1 (keys `'w'`, `'e'`) or by 0.9 (keys `'s'`,
`'d'`). -/
theorem limits_stay_positive (inputs : List (Option Char)) (s : State) (key : Char) :
    (0 < (run init inputs).speedlim ∧ 0 < (run init inputs).anglelim)
      ∧ (update s key).speedlim
          = (if key = 'w' then s.speedlim * (11/10)
              else if key = 's' then s.speedlim * (9/10) else s.speedlim)
      ∧ (update s key).anglelim
          = (if key = 'e' then s.anglelim * (11/10)
              else if key = 'd' then s.anglelim * (9/10) else s.anglelim) :=
  ⟨run_limits_pos inputs init (by norm_num [init]), update_limits s key⟩

/-! ## C15: the reset key -/

theorem update_zero (s : State) (hs : 0 ≤ s.speedlim) (ha : 0 ≤ s.anglelim) :
    update s '0' = { s with speed := 0, angle := 0 } := by
  have h1 : (update s '0').speed = 0 := by
    rw [update_zero_speed]
    exact clampTo_of_abs_le 0 _ (by simpa using hs)
  have h2 : (update s '0').angle = 0 := by
    rw [update_angle_of_mem s '0' ((mapCount_angle _).2 (by simp))]
    have : mapAt angleBindings '0' = (0, 0) := by simp [mapAt, lookup_angle]
    rw [this]
    simp only [zero_mul, add_zero]
    exact clampTo_of_abs_le 0 _ (by simpa using ha)
  have h3 := update_limits s '0'
  have e : update s '0' = ⟨(update s '0').speed, (update s '0').angle,
      (update s '0').speedlim, (update s '0').anglelim⟩ := rfl
  rw [e, h1, h2, h3.1, h3.2]
  simp

/-- C15: for every state with `speedlim > 0` and `anglelim > 0`, one tick with
the symbol `'0'` sets speed and angle to 0, leaves both limits as they were,
and publishes a message whose six components are all 0. -/
theorem reset_is_full_stop (t : Termios) (s : State)
    (hs : 0 < s.speedlim) (ha : 0 < s.anglelim) :
    (tick t s (some '0')).state = { s with speed := 0, angle := 0 }
      ∧ (tick t s (some '0')).published
          = some { linear := { x := 0, y := 0, z := 0 }
                   angular := { x := 0, y := 0, z := 0 } } := by
  have hu := update_zero s hs.le ha.le
  have hq : keyOf (some '0') ≠ 'q' := by rw [keyOf_some]; decide
  refine ⟨?_, ?_⟩
  · rw [tick_state, keyOf_some, hu]
  · rw [tick_published, if_neg hq, keyOf_some, hu]
    simp [twistOf]

/-- Reset while moving at speed 3/5 with angle -10 after both limits were
changed. -/
theorem reset_is_full_stop_witness :
    0 < (⟨3/5, -10, 9/10, 22⟩ : State).speedlim
      ∧ 0 < (⟨3/5, -10, 9/10, 22⟩ : State).anglelim
      ∧ (tick ⟨true, true, 1, 0⟩ ⟨3/5, -10, 9/10, 22⟩ (some '0')).state
          = ⟨0, 0, 9/10, 22⟩
      ∧ (tick ⟨true, true, 1, 0⟩ ⟨3/5, -10, 9/10, 22⟩ (some '0')).published
          = some { linear := { x := 0, y := 0, z := 0 }
                   angular := { x := 0, y := 0, z := 0 } } :=
  ⟨by norm_num, by norm_num,
    reset_is_full_stop ⟨true, true, 1, 0⟩ ⟨3/5, -10, 9/10, 22⟩ (by norm_num) (by norm_num)⟩

/-! ## C16: the command under the default limits -/

theorem tan_abs_le_of_abs_le (x b : ℝ) (hb : b < Real.pi / 2) (hx : |x| ≤ b) :
    |Real.tan x| ≤ Real.tan b := by
  have hx2 := abs_le.1 hx
  have hmono := Real.strictMonoOn_tan.monotoneOn
  have hxm : x ∈ Set.Ioo (-(Real.pi / 2)) (Real.pi / 2) := ⟨by linarith [hx2.1], by linarith [hx2.2]⟩
  have hb0 : 0 ≤ b := le_trans (abs_nonneg x) hx
  have hbm : b ∈ Set.Ioo (-(Real.pi / 2)) (Real.pi / 2) := ⟨by linarith, hb⟩
  have hnm : -b ∈ Set.Ioo (-(Real.pi / 2)) (Real.pi / 2) := ⟨by linarith, by linarith⟩
  rw [abs_le]
  constructor
  · have h := hmono hnm hxm hx2.1
    rwa [Real.tan_neg] at h
  · exact hmono hxm hbm hx2.2

theorem twist_bounded (s : State) (hs : |s.speed| ≤ 1) (ha : |s.angle| ≤ 20) :
    |(twistOf s).linear.x| ≤ 1
      ∧ |(twistOf s).angular.z| ≤ Real.tan (20 * Real.pi / 180) / 0.7 := by
  have hs' : |(s.speed : ℝ)| ≤ 1 := by exact_mod_cast hs
  have ha' : |(s.angle : ℝ)| ≤ 20 := by exact_mod_cast ha
  have hpi := Real.pi_pos
  have hx : |(s.angle : ℝ) * Real.pi / 180| ≤ 20 * Real.pi / 180 := by
    rw [abs_div, abs_mul, abs_of_pos hpi, abs_of_pos (by norm_num : (0 : ℝ) < 180)]
    exact div_le_div_of_nonneg_right (mul_le_mul_of_nonneg_right ha' hpi.le) (by norm_num)
  have ht := tan_abs_le_of_abs_le _ _ (by linarith) hx
  have ht0 : 0 ≤ Real.tan (20 * Real.pi / 180) := le_trans (abs_nonneg _) ht
  refine ⟨hs', ?_⟩
  simp only [twistOf, H]
  push_cast
  rw [abs_div, abs_mul, abs_of_pos (by norm_num : (0 : ℝ) < 7 / 10)]
  have hm : |(s.speed : ℝ)| * |Real.tan ((s.angle : ℝ) * Real.pi / 180)|
      ≤ 1 * Real.tan (20 * Real.pi / 180) :=
    mul_le_mul hs' ht (abs_nonneg _) (by norm_num)
  rw [one_mul] at hm
  have h07 : (0.7 : ℝ) = 7 / 10 := by norm_num
  rw [h07]
  exact div_le_div_of_nonneg_right hm (by norm_num)

theorem not_limit_input (i : Option Char)
    (h : i ≠ some 'e' ∧ i ≠ some 'd' ∧ i ≠ some 'w' ∧ i ≠ some 's') :
    mapCount limitBindings (keyOf i) ≠ 1 ∧ keyOf i ≠ 's' ∧ keyOf i ≠ 'd' := by
  cases i with
  | none =>
    rw [keyOf_none]
    exact ⟨space_in_no_table.2.2, by decide, by decide⟩
  | some c =>
    rw [keyOf_some]
    have he : c ≠ 'e' := fun hc => h.1 (by rw [hc])
    have hd : c ≠ 'd' := fun hc => h.2.1 (by rw [hc])
    have hw : c ≠ 'w' := fun hc => h.2.2.1 (by rw [hc])
    have hs : c ≠ 's' := fun hc => h.2.2.2 (by rw [hc])
    refine ⟨fun hc => ?_, hs, hd⟩
    rcases (mapCount_limit c).1 hc with h | h | h | h <;> contradiction

theorem run_default_limits (inputs : List (Option Char))
    (h : ∀ i ∈ inputs, i ≠ some 'e' ∧ i ≠ some 'd' ∧ i ≠ some 'w' ∧ i ≠ some 's') :
    Inv (run init inputs) ∧ (run init inputs).speedlim = 1
      ∧ (run init inputs).anglelim = 20 := by
  have h1 := run_inv inputs init
    (fun i hi => ⟨(not_limit_input i (h i hi)).2.1, (not_limit_input i (h i hi)).2.2⟩)
    init_inv
  have h2 := run_limits_frame inputs init (fun i hi => (not_limit_input i (h i hi)).1)
  exact ⟨h1, h2.1, h2.2⟩

/-- C16: in every state reachable from the initial state by ticks that use no
limit key (`'e'`, `'d'`, `'w'`, `'s'`), `|speed| ≤ 1` and `|angle| ≤ 20`, the
message built from the state has `|linear.x| ≤ 1` and
`|angular.z| ≤ tan(20 * pi / 180) / 0.7`, and so has every message a further
tick without a limit key publishes. -/
theorem default_limits_bound_command (inputs : List (Option Char))
    (h : ∀ i ∈ inputs, i ≠ some 'e' ∧ i ≠ some 'd' ∧ i ≠ some 'w' ∧ i ≠ some 's') :
    |(run init inputs).speed| ≤ 1 ∧ |(run init inputs).angle| ≤ 20
      ∧ |(twistOf (run init inputs)).linear.x| ≤ 1
      ∧ |(twistOf (run init inputs)).angular.z| ≤ Real.tan (20 * Real.pi / 180) / 0.7
      ∧ ∀ (t : Termios) (i : Option Char) (tw : Twist),
          (i ≠ some 'e' ∧ i ≠ some 'd' ∧ i ≠ some 'w' ∧ i ≠ some 's') →
          (tick t (run init inputs) i).published = some tw →
          |tw.linear.x| ≤ 1 ∧ |tw.angular.z| ≤ Real.tan (20 * Real.pi / 180) / 0.7 := by
  obtain ⟨hinv, hsl, hal⟩ := run_default_limits inputs h
  have hs : |(run init inputs).speed| ≤ 1 := hsl ▸ hinv.2.2.1
  have ha : |(run init inputs).angle| ≤ 20 := hal ▸ hinv.2.2.2
  refine ⟨hs, ha, (twist_bounded _ hs ha).1, (twist_bounded _ hs ha).2, ?_⟩
  intro t i tw hi hp
  have hk := not_limit_input i hi
  have hinv2 := update_inv (run init inputs) (keyOf i) hk.2.1 hk.2.2 hinv
  have hlim := update_limits_frame (run init inputs) (keyOf i) hk.1
  have hs2 : |(update (run init inputs) (keyOf i)).speed| ≤ 1 := by
    have := hinv2.2.2.1
    rwa [hlim.1, hsl] at this
  have ha2 : |(update (run init inputs) (keyOf i)).angle| ≤ 20 := by
    have := hinv2.2.2.2
    rwa [hlim.2, hal] at this
  rw [tick_published] at hp
  split_ifs at hp
  have htw : twistOf (update (run init inputs) (keyOf i)) = tw := Option.some.inj hp
  rw [← htw]
  exact twist_bounded _ hs2 ha2

/-- Full speed ahead with the steering at its default limit: seven `'A'`, three
`'D'` and an idle tick. -/
theorem default_limits_bound_command_witness :
    (∀ i ∈ [some 'A', some 'A', some 'A', some 'A', some 'A', some 'A', some 'A',
          some 'D', some 'D', some 'D', none],
        i ≠ some 'e' ∧ i ≠ some 'd' ∧ i ≠ some 'w' ∧ i ≠ some 's')
      ∧ |(twistOf (run init [some 'A', some 'A', some 'A', some 'A', some 'A', some 'A',
          some 'A', some 'D', some 'D', some 'D', none])).angular.z|
          ≤ Real.tan (20 * Real.pi / 180) / 0.7 :=
  ⟨by decide, (default_limits_bound_command _ (by decide)).2.2.2.1⟩

/-! ## C13: the angle and 90 degrees -/

theorem update_angle_abs (s : State) (key : Char) (h : 0 ≤ s.anglelim) :
    |(update s key).angle| ≤ max |s.angle| s.anglelim := by
  by_cases hk : mapCount angleBindings key = 1
  · rw [update_angle_of_mem s key hk]
    exact le_trans (clampTo_abs_le _ _ h) (le_max_right _ _)
  · have : (update s key).angle = s.angle := by
      unfold update
      rw [(limitBlock_frame _ key).2, angleBlock_of_not_mem _ key hk,
        (speedBlock_frame s key).1]
    rw [this]
    exact le_max_left _ _

theorem angleWithin_mono (s : State) (k m : ℕ) (hkm : k ≤ m) (h : AngleWithin k s) :
    AngleWithin m s := by
  have hp : (11/10 : ℚ) ^ k ≤ (11/10) ^ m := pow_le_pow_right₀ (by norm_num) hkm
  exact ⟨h.1, by linarith [h.2.1], by linarith [h.2.2]⟩

theorem update_angleWithin (s : State) (key : Char) (k : ℕ) (h : AngleWithin k s) :
    AngleWithin (k + (if key = 'e' then 1 else 0)) (update s key) := by
  obtain ⟨h0, h1, h2⟩ := h
  have hang := update_angle_abs s key h0.le
  have hmax : max |s.angle| s.anglelim ≤ 20 * (11/10) ^ k := max_le h2 h1
  have hpow : (0 : ℚ) < (11/10) ^ k := by positivity
  have hlim := (update_limits s key).2
  by_cases he : key = 'e'
  · rw [if_pos he] at hlim ⊢
    refine ⟨by rw [hlim]; linarith, ?_, ?_⟩
    · rw [hlim, pow_succ]; linarith
    · rw [pow_succ]; linarith
  · rw [if_neg he] at hlim ⊢
    rw [Nat.add_zero]
    refine ⟨?_, ?_, le_trans hang hmax⟩
    · rw [hlim]; split_ifs <;> linarith
    · rw [hlim]; split_ifs <;> linarith

theorem count_e_cons (i : Option Char) (rest : List (Option Char)) :
    List.count (some 'e') (i :: rest)
      = List.count (some 'e') rest + (if keyOf i = 'e' then 1 else 0) := by
  rw [List.count_cons]
  cases i with
  | none => rw [keyOf_none]; simp
  | some c =>
    rw [keyOf_some]
    by_cases hc : c = 'e'
    · simp [hc]
    · simp [hc]

theorem run_angleWithin (inputs : List (Option Char)) :
    ∀ (s : State) (k : ℕ), AngleWithin k s →
      AngleWithin (k + List.count (some 'e') inputs) (run s inputs) := by
  induction inputs with
  | nil => intro s k h; simpa [run] using h
  | cons i rest ih =>
    intro s k h
    have hu := update_angleWithin s (keyOf i) k h
    rw [count_e_cons]
    generalize (if keyOf i = 'e' then 1 else 0) = b at hu ⊢
    simp only [run]
    by_cases hq : keyOf i = 'q'
    · rw [if_pos hq]
      exact angleWithin_mono _ _ _ (by omega) hu
    · rw [if_neg hq]
      have hr := ih _ _ hu
      have e : k + b + List.count (some 'e') rest
          = k + (List.count (some 'e') rest + b) := by omega
      rwa [e] at hr

theorem cos_pos_of_abs_lt_ninety (a : ℚ) (h : |a| < 90) :
    0 < Real.cos ((a : ℝ) * Real.pi / 180) := by
  have h' : |(a : ℝ)| < 90 := by exact_mod_cast h
  have h2 := abs_lt.1 h'
  have hpi := Real.pi_pos
  apply Real.cos_pos_of_mem_Ioo
  constructor
  · have : (-90 : ℝ) * Real.pi < (a : ℝ) * Real.pi := mul_lt_mul_of_pos_right h2.1 hpi
    linarith
  · have : (a : ℝ) * Real.pi < 90 * Real.pi := mul_lt_mul_of_pos_right h2.2 hpi
    linarith

theorem run_append (l₁ l₂ : List (Option Char)) :
    ∀ s : State, (∀ j ∈ l₁, keyOf j ≠ 'q') → run s (l₁ ++ l₂) = run (run s l₁) l₂ := by
  induction l₁ with
  | nil => intro s _; rfl
  | cons j rest ih =>
    intro s hq
    have hj := hq j (List.mem_cons_self _ _)
    simp only [List.cons_append, run, hj, if_false]
    exact ih _ (fun l hl => hq l (List.mem_cons_of_mem _ hl))

theorem run_replicate_e (n : ℕ) :
    ∀ s : State, run s (List.replicate n (some 'e'))
      = { s with anglelim := s.anglelim * (11/10) ^ n } := by
  induction n with
  | zero => intro s; simp [run]
  | succ n ih =>
    intro s
    have hq : keyOf (some 'e') ≠ 'q' := by rw [keyOf_some]; decide
    rw [List.replicate_succ]
    simp only [run, hq, if_false]
    rw [keyOf_some, update_of_limit_key s 'e' ((mapCount_limit 'e').2 (by simp)),
      limitBlock_e, ih]
    simp only [State.mk.injEq, true_and]
    ring

theorem update_D (s : State) (h0 : 0 ≤ s.angle) (h : s.angle + 10 ≤ s.anglelim) :
    update s 'D' = { s with angle := s.angle + 10 } := by
  have hs : mapCount speedBindings 'D' ≠ 1 := fun hc => by
    rcases (mapCount_speed _).1 hc with h | h | h <;> exact absurd h (by decide)
  have hl : mapCount limitBindings 'D' ≠ 1 := fun hc => by
    rcases (mapCount_limit _).1 hc with h | h | h | h <;> exact absurd h (by decide)
  have ha : mapCount angleBindings 'D' = 1 := (mapCount_angle 'D').2 (by simp)
  have hentry : mapAt angleBindings 'D' = (1, 10) := by simp [mapAt, lookup_angle]
  unfold update
  rw [speedBlock_of_not_mem s 'D' hs, limitBlock_of_not_mem _ 'D' hl]
  simp only [angleBlock, ha, if_true, applyAngleUpdate, hentry, one_mul]
  rw [clampTo_of_abs_le _ _ (by rw [abs_le]; constructor <;> linarith)]

theorem run_replicate_D (n : ℕ) :
    ∀ s : State, 0 ≤ s.angle → s.angle + 10 * n ≤ s.anglelim →
      run s (List.replicate n (some 'D')) = { s with angle := s.angle + 10 * n } := by
  induction n with
  | zero => intro s _ _; simp [run]
  | succ n ih =>
    intro s h0 h
    push_cast at h
    have hn : (0 : ℚ) ≤ n := Nat.cast_nonneg n
    have hq : keyOf (some 'D') ≠ 'q' := by rw [keyOf_some]; decide
    rw [List.replicate_succ]
    simp only [run, hq, if_false]
    rw [keyOf_some, update_D s h0 (by linarith), ih _ (by simp only; linarith)
      (by simp only; linarith)]
    simp only [State.mk.injEq, true_and, and_true]
    push_cast
    ring

theorem run_sixteen_e_nine_D :
    run init (List.replicate 16 (some 'e') ++ List.replicate 9 (some 'D'))
      = { speed := 0, angle := 90, speedlim := 1, anglelim := 20 * (11/10) ^ 16 } := by
  rw [run_append _ _ _ (fun j hj => by
    rw [List.eq_of_mem_replicate hj, keyOf_some]; decide), run_replicate_e]
  rw [run_replicate_D 9 _ (by norm_num [init]) (by norm_num [init])]
  norm_num [init]

/-- C13, as stated, fails: sixteen ticks with `'e'` raise the angle limit to
`20 * 1.1 ^ 16`, which is above 90, and nine ticks with `'D'` then bring the
angle to exactly 90, where the cosine of the angle in radians is 0. -/
theorem angle_reaches_ninety :
    run init (List.replicate 16 (some 'e') ++ List.replicate 9 (some 'D'))
        = { speed := 0, angle := 90, speedlim := 1, anglelim := 20 * (11/10) ^ 16 }
      ∧ ¬ ((run init (List.replicate 16 (some 'e') ++ List.replicate 9 (some 'D'))).anglelim
            < 90
          ∧ |(run init (List.replicate 16 (some 'e')
              ++ List.replicate 9 (some 'D'))).angle| < 90)
      ∧ Real.cos (((run init (List.replicate 16 (some 'e')
          ++ List.replicate 9 (some 'D'))).angle : ℝ) * Real.pi / 180) = 0 := by
  refine ⟨run_sixteen_e_nine_D, ?_, ?_⟩
  · rw [run_sixteen_e_nine_D]
    rintro ⟨h1, -⟩
    norm_num at h1
  · rw [run_sixteen_e_nine_D]
    have e : ((90 : ℚ) : ℝ) * Real.pi / 180 = Real.pi / 2 := by
      push_cast
      ring
    simp only []
    rw [e, Real.cos_pi_div_two]

/-- C13, amended: in every state reachable from the initial state by a finite
sequence of ticks with at most fifteen presses of the key `'e'`,
`anglelim < 90` and `|angle| < 90`, so the cosine of the angle in radians is
not 0 and the tangent in the angular rate is defined. -/
theorem angle_below_ninety_up_to_fifteen_raises (inputs : List (Option Char))
    (h : List.count (some 'e') inputs ≤ 15) :
    (run init inputs).anglelim < 90 ∧ |(run init inputs).angle| < 90
      ∧ Real.cos (((run init inputs).angle : ℝ) * Real.pi / 180) ≠ 0 := by
  have h0 : AngleWithin 0 init := by
    simp [AngleWithin, init]
  have h1 := run_angleWithin inputs init 0 h0
  have h2 := angleWithin_mono _ _ 15 (by omega) h1
  have hb : (20 : ℚ) * (11/10) ^ 15 < 90 := by norm_num
  have ha : |(run init inputs).angle| < 90 := lt_of_le_of_lt h2.2.2 hb
  exact ⟨lt_of_le_of_lt h2.2.1 hb, ha, (cos_pos_of_abs_lt_ninety _ ha).ne'⟩

/-- Fifteen presses of `'e'`, then steering right eight times. -/
theorem angle_below_ninety_up_to_fifteen_raises_witness :
    List.count (some 'e')
        (List.replicate 15 (some 'e') ++ List.replicate 8 (some 'D')) ≤ 15
      ∧ (run init (List.replicate 15 (some 'e') ++ List.replicate 8 (some 'D'))).anglelim
          < 90
      ∧ |(run init (List.replicate 15 (some 'e') ++ List.replicate 8 (some 'D'))).angle|
          < 90 :=
  ⟨by decide,
    (angle_below_ninety_up_to_fifteen_raises _ (by decide)).1,
    (angle_below_ninety_up_to_fifteen_raises _ (by decide)).2.1⟩

/-! ## C5: the reset symbol on the speed table -/

/-- C5: a tick with the reset symbol `'0'` (speed-table entry (0, 0), then the
two limiting `if`s) yields speed = 0 exactly, whatever the prior speed, for
every speed limit that is not negative, and so in every state the loop
reaches from the initial state, where the speed limit is positive. -/
theorem reset_speed_yields_zero (s : State) (inputs : List (Option Char)) (t : Termios) :
    mapAt speedBindings '0' = (0, 0)
      ∧ (0 ≤ s.speedlim → (update s '0').speed = 0)
      ∧ (update (run init inputs) '0').speed = 0
      ∧ (tick t (run init inputs) (some '0')).state.speed = 0 := by
  have hz : ∀ u : State, 0 ≤ u.speedlim → (update u '0').speed = 0 := by
    intro u hu
    rw [update_zero_speed]
    exact clampTo_of_abs_le 0 _ (by simpa using hu)
  have hpos := (run_limits_pos inputs init (by norm_num [init])).1
  refine ⟨by simp [mapAt, lookup_speed], hz s, hz _ hpos.le, ?_⟩
  rw [tick_state, keyOf_some]
  exact hz _ hpos.le

/-- Reset from speed 5 under the limit 1. -/
theorem reset_speed_yields_zero_witness :
    0 ≤ (⟨5, 3, 1, 20⟩ : State).speedlim ∧ (update ⟨5, 3, 1, 20⟩ '0').speed = 0 :=
  ⟨by norm_num,
    (reset_speed_yields_zero ⟨5, 3, 1, 20⟩ [] ⟨true, true, 1, 0⟩).2.1 (by norm_num)⟩

/-! ## Lemmas on binary32 rounding -/

theorem roundHalfEven_sub_le (x : ℚ) : |(roundHalfEven x : ℚ) - x| ≤ 1/2 := by
  have h1 : (⌊x⌋ : ℚ) ≤ x := Int.floor_le x
  have h2 : x < (⌊x⌋ : ℚ) + 1 := Int.lt_floor_add_one x
  unfold roundHalfEven
  rw [abs_le]
  split_ifs <;> constructor <;> push_cast <;> linarith

theorem binadeFrom_ge (a : ℚ) (fuel : ℕ) : ∀ e : ℤ, e ≤ binadeFrom a fuel e := by
  induction fuel with
  | zero => intro e; simp [binadeFrom]
  | succ n ih =>
    intro e
    simp only [binadeFrom]
    split_ifs
    · exact le_trans (by omega) (ih (e + 1))
    · exact le_refl e

theorem binadeFrom_le (a : ℚ) (fuel : ℕ) : ∀ e : ℤ, binadeFrom a fuel e ≤ e + fuel := by
  induction fuel with
  | zero => intro e; simp [binadeFrom]
  | succ n ih =>
    intro e
    simp only [binadeFrom]
    split_ifs
    · have := ih (e + 1)
      push_cast
      omega
    · push_cast
      omega

theorem binadeFrom_pow_le (a : ℚ) (fuel : ℕ) :
    ∀ e : ℤ, (2 : ℚ) ^ e ≤ a → (2 : ℚ) ^ (binadeFrom a fuel e) ≤ a := by
  induction fuel with
  | zero => intro e h; simpa [binadeFrom] using h
  | succ n ih =>
    intro e h
    simp only [binadeFrom]
    split_ifs with h1
    · exact ih (e + 1) h1
    · exact h

theorem binadeFrom_pow_le_of_lt (a : ℚ) (fuel : ℕ) :
    ∀ e : ℤ, e < binadeFrom a fuel e → (2 : ℚ) ^ (binadeFrom a fuel e) ≤ a := by
  induction fuel with
  | zero => intro e h; simp [binadeFrom] at h
  | succ n ih =>
    intro e h
    simp only [binadeFrom] at h ⊢
    split_ifs at h ⊢ with h1
    · exact binadeFrom_pow_le a n (e + 1) h1
    · exact absurd h (lt_irrefl e)

theorem expo32_bounds (q : ℚ) : -126 ≤ expo32 q ∧ expo32 q ≤ 127 := by
  unfold expo32
  have h1 := binadeFrom_ge |q| 253 (-126)
  have h2 := binadeFrom_le |q| 253 (-126)
  constructor
  · exact h1
  · push_cast at h2; omega

theorem ulp32_pos (q : ℚ) : 0 < ulp32 q := by
  unfold ulp32
  positivity

theorem ulp32_le (q : ℚ) (h : (2 : ℚ) ^ (-126 : ℤ) ≤ q) : ulp32 q ≤ q / 2 ^ 23 := by
  have hq : 0 < q := lt_of_lt_of_le (by positivity) h
  have hp : (2 : ℚ) ^ (expo32 q) ≤ q := by
    have := binadeFrom_pow_le |q| 253 (-126) (by rw [abs_of_pos hq]; exact h)
    rw [abs_of_pos hq] at this
    unfold expo32
    rw [abs_of_pos hq]
    exact this
  unfold ulp32
  rw [zpow_sub₀ (by norm_num : (2 : ℚ) ≠ 0)]
  have : (2 : ℚ) ^ (23 : ℤ) = 2 ^ 23 := by norm_cast
  rw [this]
  exact div_le_div_of_nonneg_right hp (by positivity)

theorem round32_err (q : ℚ) :
    |(roundHalfEven (q / ulp32 q) : ℚ) * ulp32 q - q| ≤ ulp32 q / 2 := by
  have hu := ulp32_pos q
  have h := roundHalfEven_sub_le (q / ulp32 q)
  have e : (roundHalfEven (q / ulp32 q) : ℚ) * ulp32 q - q
      = ((roundHalfEven (q / ulp32 q) : ℚ) - q / ulp32 q) * ulp32 q := by
    field_simp
  rw [e, abs_mul, abs_of_pos hu]
  calc |(roundHalfEven (q / ulp32 q) : ℚ) - q / ulp32 q| * ulp32 q
      ≤ 1/2 * ulp32 q := mul_le_mul_of_nonneg_right h hu.le
    _ = ulp32 q / 2 := by ring

theorem round32_rel (q : ℚ) (h : (2 : ℚ) ^ (-126 : ℤ) ≤ q) :
    q * (1 - 1 / 2 ^ 24) ≤ (roundHalfEven (q / ulp32 q) : ℚ) * ulp32 q
      ∧ (roundHalfEven (q / ulp32 q) : ℚ) * ulp32 q ≤ q * (1 + 1 / 2 ^ 24) := by
  have h1 := abs_le.1 (round32_err q)
  have h2 := ulp32_le q h
  have e : q / 2 ^ 23 / 2 = q * (1 / 2 ^ 24) := by ring
  constructor <;> nlinarith [h1.1, h1.2, h2]

theorem round32_of_lt (q : ℚ)
    (h : |(roundHalfEven (q / ulp32 q) : ℚ) * ulp32 q| < 2 ^ 128) :
    round32 q = F32.finite (roundHalfEven (q / ulp32 q) * ulp32 q) := by
  unfold round32
  rw [if_neg (not_le.2 h)]

theorem round32_of_ge (q : ℚ) (hq : 0 < q)
    (h : 2 ^ 128 ≤ |(roundHalfEven (q / ulp32 q) : ℚ) * ulp32 q|) :
    round32 q = F32.inf false := by
  unfold round32
  rw [if_pos h]
  simp [not_lt.2 hq.le]

theorem fmul32_gt (x f : ℚ) (hx : 0 < x) (hq : (2 : ℚ) ^ (-126 : ℤ) ≤ x * f)
    (hf : 1 + 1 / 2 ^ 23 ≤ f) :
    flt32 (F32.finite x) (fmul32 (F32.finite x) (F32.finite f)) = true := by
  have hr := (round32_rel (x * f) hq).1
  have hqpos : 0 < x * f := lt_of_lt_of_le (by positivity) hq
  have hxr : x < (roundHalfEven (x * f / ulp32 (x * f)) : ℚ) * ulp32 (x * f) := by
    have h1 : x * ((1 + 1 / 2 ^ 23) * (1 - 1 / 2 ^ 24)) ≤ x * f * (1 - 1 / 2 ^ 24) := by
      have : x * (1 + 1 / 2 ^ 23) ≤ x * f := mul_le_mul_of_nonneg_left hf hx.le
      have h0 : (0 : ℚ) ≤ 1 - 1 / 2 ^ 24 := by norm_num
      nlinarith
    have h2 : x < x * ((1 + 1 / 2 ^ 23) * (1 - 1 / 2 ^ 24)) := by
      have : (1 : ℚ) < (1 + 1 / 2 ^ 23) * (1 - 1 / 2 ^ 24) := by norm_num
      nlinarith
    linarith
  simp only [fmul32]
  by_cases hb : 2 ^ 128 ≤ |(roundHalfEven (x * f / ulp32 (x * f)) : ℚ) * ulp32 (x * f)|
  · rw [round32_of_ge _ hqpos hb]
    rfl
  · rw [round32_of_lt _ (not_le.1 hb)]
    simp only [flt32, decide_eq_true_eq]
    exact hxr

theorem fmul32_lt (x f : ℚ) (hx : 0 < x) (hx2 : x < 2 ^ 128)
    (hq : (2 : ℚ) ^ (-126 : ℤ) ≤ x * f) (hf : f ≤ 1 - 1 / 2 ^ 24) :
    flt32 (fmul32 (F32.finite x) (F32.finite f)) (F32.finite x) = true := by
  have hr := round32_rel (x * f) hq
  have hqpos : 0 < x * f := lt_of_lt_of_le (by positivity) hq
  have hrx : (roundHalfEven (x * f / ulp32 (x * f)) : ℚ) * ulp32 (x * f) < x := by
    have h1 : x * f * (1 + 1 / 2 ^ 24) ≤ x * ((1 - 1 / 2 ^ 24) * (1 + 1 / 2 ^ 24)) := by
      have : x * f ≤ x * (1 - 1 / 2 ^ 24) := mul_le_mul_of_nonneg_left hf hx.le
      have h0 : (0 : ℚ) ≤ 1 + 1 / 2 ^ 24 := by norm_num
      nlinarith
    have h2 : x * ((1 - 1 / 2 ^ 24) * (1 + 1 / 2 ^ 24)) < x := by
      have : (1 - 1 / 2 ^ 24) * (1 + 1 / 2 ^ 24) < (1 : ℚ) := by norm_num
      nlinarith
    linarith [hr.2]
  have hrpos : 0 ≤ (roundHalfEven (x * f / ulp32 (x * f)) : ℚ) * ulp32 (x * f) := by
    have h0 : (0 : ℚ) ≤ 1 - 1 / 2 ^ 24 := by norm_num
    exact le_trans (mul_nonneg hqpos.le h0) hr.1
  simp only [fmul32]
  rw [round32_of_lt _ (by rw [abs_of_nonneg hrpos]; linarith)]
  simp only [flt32, decide_eq_true_eq]
  exact hrx

theorem roundHalfEven_pos (x : ℚ) (h : 1/2 < x) : 1 ≤ roundHalfEven x := by
  have h1 := (abs_le.1 (roundHalfEven_sub_le x)).1
  have h2 : (0 : ℚ) < (roundHalfEven x : ℚ) := by linarith
  have h3 : (0 : ℤ) < roundHalfEven x := by exact_mod_cast h2
  omega

theorem ulp32_grid (q : ℚ) : ∃ m : ℕ, ulp32 q = (2 : ℚ) ^ m / 2 ^ 149 := by
  have hb := (expo32_bounds q).1
  refine ⟨(expo32 q + 126).toNat, ?_⟩
  unfold ulp32
  have e : expo32 q - 23 = ((expo32 q + 126).toNat : ℤ) - 149 := by
    rw [Int.toNat_of_nonneg (by omega)]
    ring
  rw [e, zpow_sub₀ (by norm_num : (2 : ℚ) ≠ 0)]
  norm_cast

/-- A positive value on the grid of multiples of `2 ^ (-149)`, times a factor
above 1/2, rounds to a positive value on that grid. -/
theorem round32_grid (k : ℕ) (hk : 0 < k) (f : ℚ) (hf1 : 1/2 < f) :
    ∃ k2 : ℕ, 0 < k2
      ∧ (roundHalfEven ((k : ℚ) / 2 ^ 149 * f / ulp32 ((k : ℚ) / 2 ^ 149 * f)) : ℚ)
          * ulp32 ((k : ℚ) / 2 ^ 149 * f) = (k2 : ℚ) / 2 ^ 149 := by
  set q : ℚ := (k : ℚ) / 2 ^ 149 * f with hq
  have hk1 : (1 : ℚ) ≤ k := by exact_mod_cast hk
  have hqpos : 0 < q := by positivity
  obtain ⟨m, hm⟩ := ulp32_grid q
  have hu := ulp32_pos q
  have hn : 1 ≤ roundHalfEven (q / ulp32 q) := by
    apply roundHalfEven_pos
    by_cases he : expo32 q = -126
    · have hu2 : ulp32 q = 1 / 2 ^ 149 := by
        unfold ulp32
        rw [he]
        norm_num [zpow_neg]
      rw [hu2, hq]
      have : (k : ℚ) / 2 ^ 149 * f / (1 / 2 ^ 149) = k * f := by
        field_simp
      rw [this]
      nlinarith
    · have hlt : -126 < expo32 q := lt_of_le_of_ne (expo32_bounds q).1 (Ne.symm he)
      have hp : (2 : ℚ) ^ (expo32 q) ≤ |q| := by
        unfold expo32 at hlt ⊢
        exact binadeFrom_pow_le_of_lt |q| 253 (-126) hlt
      rw [abs_of_pos hqpos] at hp
      have hu3 : ulp32 q = 2 ^ (expo32 q) / 2 ^ 23 := by
        unfold ulp32
        rw [zpow_sub₀ (by norm_num : (2 : ℚ) ≠ 0)]
        norm_cast
      have h23 : (2 : ℚ) ^ 23 ≤ q / ulp32 q := by
        rw [hu3, le_div_iff₀ (by positivity)]
        have hpp : (0 : ℚ) < 2 ^ (expo32 q) := by positivity
        calc (2 : ℚ) ^ 23 * (2 ^ (expo32 q) / 2 ^ 23) = 2 ^ (expo32 q) := by field_simp
          _ ≤ q := hp
      have : (1 : ℚ) ≤ 2 ^ 23 := by norm_num
      linarith
  refine ⟨(roundHalfEven (q / ulp32 q)).toNat * 2 ^ m, ?_, ?_⟩
  · have : 0 < (roundHalfEven (q / ulp32 q)).toNat := by omega
    positivity
  · rw [hm]
    have hc : ((roundHalfEven (q / (2 ^ m / 2 ^ 149))).toNat : ℤ)
        = roundHalfEven (q / (2 ^ m / 2 ^ 149)) := by
      rw [hm] at hn
      exact Int.toNat_of_nonneg (by omega)
    have hc2 : (((roundHalfEven (q / (2 ^ m / 2 ^ 149))).toNat : ℕ) : ℚ)
        = (roundHalfEven (q / (2 ^ m / 2 ^ 149)) : ℚ) := by
      exact_mod_cast hc
    push_cast
    rw [hc2]
    ring

/-! ## Lemmas on the limit block in binary32 -/

theorem lit32_zero : lit32 0 = F32.finite 0 := by decide!

theorem lit32_one : lit32 1 = F32.finite 1 := by decide!

theorem lit32_raise : lit32 (11/10) = F32.finite (9227469/8388608) := by decide!

theorem lit32_lower : lit32 (9/10) = F32.finite (7549747/8388608) := by decide!

theorem update32_of_limit_key (s : State32) (key : Char)
    (h : mapCount limitBindings key = 1) : update32 s key = limitBlock32 s key := by
  have hs : mapCount speedBindings key ≠ 1 := fun hc => (speed_key_facts key hc).2 h
  have ha : mapCount angleBindings key ≠ 1 := fun hc => (angle_key_facts key hc).2 h
  simp [update32, speedBlock32, angleBlock32, hs, ha]

theorem update32_w (s : State32) :
    update32 s 'w' = { s with speedlim := fmul32 s.speedlim (lit32 (11/10)) } := by
  rw [update32_of_limit_key s 'w' ((mapCount_limit 'w').2 (by simp))]
  simp [limitBlock32, mapCount, mapAt, lookup_limit, applyLimitUpdate32, lit32_one]

theorem update32_s (s : State32) :
    update32 s 's' = { s with speedlim := fmul32 s.speedlim (lit32 (9/10)) } := by
  rw [update32_of_limit_key s 's' ((mapCount_limit 's').2 (by simp))]
  simp [limitBlock32, mapCount, mapAt, lookup_limit, applyLimitUpdate32, lit32_one]

theorem update32_e (s : State32) :
    update32 s 'e' = { s with anglelim := fmul32 s.anglelim (lit32 (11/10)) } := by
  rw [update32_of_limit_key s 'e' ((mapCount_limit 'e').2 (by simp))]
  simp [limitBlock32, mapCount, mapAt, lookup_limit, applyLimitUpdate32, lit32_zero]

theorem update32_d (s : State32) :
    update32 s 'd' = { s with anglelim := fmul32 s.anglelim (lit32 (9/10)) } := by
  rw [update32_of_limit_key s 'd' ((mapCount_limit 'd').2 (by simp))]
  simp [limitBlock32, mapCount, mapAt, lookup_limit, applyLimitUpdate32, lit32_zero]

/-- A product in the normal range that stays below `2 ^ 128` after rounding is
finite and within a relative error of `2 ^ (-24)` of the exact product. -/
theorem fmul32_rel (x f : ℚ) (hq : (2 : ℚ) ^ (-126 : ℤ) ≤ x * f)
    (hb : x * f * (1 + 1 / 2 ^ 24) < 2 ^ 128) :
    ∃ y : ℚ, fmul32 (F32.finite x) (F32.finite f) = F32.finite y
      ∧ x * f * (1 - 1 / 2 ^ 24) ≤ y ∧ y ≤ x * f * (1 + 1 / 2 ^ 24) := by
  have hr := round32_rel (x * f) hq
  have hqpos : 0 < x * f := lt_of_lt_of_le (by positivity) hq
  have hrpos : 0 ≤ (roundHalfEven (x * f / ulp32 (x * f)) : ℚ) * ulp32 (x * f) := by
    have h0 : (0 : ℚ) ≤ 1 - 1 / 2 ^ 24 := by norm_num
    exact le_trans (mul_nonneg hqpos.le h0) hr.1
  refine ⟨_, ?_, hr.1, hr.2⟩
  simp only [fmul32]
  exact round32_of_lt _ (by rw [abs_of_nonneg hrpos]; linarith [hr.2])

theorem fmul32_raise_close (x : ℚ) (h1 : (2 : ℚ) ^ (-125 : ℤ) ≤ x) (h2 : x ≤ 2 ^ 127) :
    ∃ y : ℚ, fmul32 (F32.finite x) (lit32 (11/10)) = F32.finite y
      ∧ |y - x * (11/10)| ≤ x / 2 ^ 23 := by
  have hx : 0 < x := lt_of_lt_of_le (by positivity) h1
  have h125 : (2 : ℚ) ^ (-126 : ℤ) ≤ 2 ^ (-125 : ℤ) :=
    zpow_le_zpow_right₀ (by norm_num) (by norm_num)
  rw [lit32_raise]
  have hq : (2 : ℚ) ^ (-126 : ℤ) ≤ x * (9227469/8388608) :=
    le_trans (le_trans h125 h1) (by linarith)
  obtain ⟨y, hy, hlo, hhi⟩ := fmul32_rel x (9227469/8388608) hq (by nlinarith)
  refine ⟨y, hy, ?_⟩
  rw [abs_le]
  constructor <;> nlinarith

theorem fmul32_lower_close (x : ℚ) (h1 : (2 : ℚ) ^ (-125 : ℤ) ≤ x) (h2 : x ≤ 2 ^ 127) :
    ∃ y : ℚ, fmul32 (F32.finite x) (lit32 (9/10)) = F32.finite y
      ∧ |y - x * (9/10)| ≤ x / 2 ^ 23 := by
  have hx : 0 < x := lt_of_lt_of_le (by positivity) h1
  have h125 : (2 : ℚ) ^ (-125 : ℤ) = 2 * 2 ^ (-126 : ℤ) := by
    rw [show (-125 : ℤ) = 1 + -126 by norm_num, zpow_add₀ (by norm_num : (2 : ℚ) ≠ 0)]
    norm_num
  have hp : (0 : ℚ) < 2 ^ (-126 : ℤ) := by positivity
  rw [lit32_lower]
  have hq : (2 : ℚ) ^ (-126 : ℤ) ≤ x * (7549747/8388608) := by
    have hx2 : 2 * (2 : ℚ) ^ (-126 : ℤ) ≤ x := h125 ▸ h1
    calc (2 : ℚ) ^ (-126 : ℤ) ≤ 2 * 2 ^ (-126 : ℤ) * (7549747/8388608) := by
          generalize (2 : ℚ) ^ (-126 : ℤ) = a at hp
          linarith
      _ ≤ x * (7549747/8388608) := mul_le_mul_of_nonneg_right hx2 (by norm_num)
  obtain ⟨y, hy, hlo, hhi⟩ := fmul32_rel x (7549747/8388608) hq (by nlinarith)
  refine ⟨y, hy, ?_⟩
  rw [abs_le]
  constructor <;> nlinarith

theorem run32_replicate_s (n : ℕ) :
    ∀ s : State32, (run32 s (List.replicate n (some 's'))).speedlim
      = (fun l => fmul32 l (lit32 (9/10)))^[n] s.speedlim := by
  induction n with
  | zero => intro s; rfl
  | succ n ih =>
    intro s
    have hq : keyOf (some 's') ≠ 'q' := by rw [keyOf_some]; decide
    rw [List.replicate_succ]
    simp only [run32, hq, if_false]
    rw [keyOf_some, update32_s, ih, Function.iterate_succ_apply]

/-- Lowering cannot go on for ever: after some number of presses of `'s'` from
the initial state the speed limit is a positive finite binary32 value that one
more press of `'s'` does not make smaller. -/
theorem lowering_stalls_reachable :
    ∃ (n : ℕ) (x : ℚ),
      (run32 init32 (List.replicate n (some 's'))).speedlim = F32.finite x ∧ 0 < x
        ∧ flt32 (update32 (run32 init32 (List.replicate n (some 's'))) 's').speedlim
            (F32.finite x) = false := by
  by_contra hne
  push_neg at hne
  have hstep : ∀ n : ℕ, (update32 (run32 init32 (List.replicate n (some 's'))) 's').speedlim
      = fmul32 (run32 init32 (List.replicate n (some 's'))).speedlim (lit32 (9/10)) := by
    intro n
    rw [update32_s]
  have hnext : ∀ n : ℕ, (run32 init32 (List.replicate (n + 1) (some 's'))).speedlim
      = fmul32 (run32 init32 (List.replicate n (some 's'))).speedlim (lit32 (9/10)) := by
    intro n
    rw [run32_replicate_s, run32_replicate_s, Function.iterate_succ_apply']
  have key : ∀ n : ℕ, ∃ k : ℕ, 0 < k
      ∧ (run32 init32 (List.replicate n (some 's'))).speedlim
          = F32.finite ((k : ℚ) / 2 ^ 149)
      ∧ k + n ≤ 2 ^ 149 := by
    intro n
    induction n with
    | zero =>
      refine ⟨2 ^ 149, by positivity, ?_, le_refl _⟩
      simp only [List.replicate, run32, init32]
      norm_num
    | succ n ih =>
      obtain ⟨k, hk, hl, hkn⟩ := ih
      have hx : (0 : ℚ) < (k : ℚ) / 2 ^ 149 := by positivity
      have hlt := hne n _ hl hx
      rw [hstep, hl, lit32_lower] at hlt
      rw [hnext, hl, lit32_lower]
      simp only [fmul32] at hlt ⊢
      have hqpos : (0 : ℚ) < (k : ℚ) / 2 ^ 149 * (7549747/8388608) := by positivity
      obtain ⟨k2, hk2, hgrid⟩ := round32_grid k hk (7549747/8388608) (by norm_num)
      by_cases hb : 2 ^ 128 ≤ |(roundHalfEven ((k : ℚ) / 2 ^ 149 * (7549747/8388608)
          / ulp32 ((k : ℚ) / 2 ^ 149 * (7549747/8388608))) : ℚ)
          * ulp32 ((k : ℚ) / 2 ^ 149 * (7549747/8388608))|
      · rw [round32_of_ge _ hqpos hb] at hlt
        simp [flt32] at hlt
      · rw [round32_of_lt _ (not_le.1 hb)] at hlt ⊢
        rw [hgrid] at hlt ⊢
        have hlt2 : (k2 : ℚ) / 2 ^ 149 < (k : ℚ) / 2 ^ 149 := by
          simpa [flt32] using hlt
        have hlt3 : (k2 : ℚ) < k := by
          rwa [div_lt_div_iff_of_pos_right (by positivity)] at hlt2
        have hlt4 : k2 < k := by exact_mod_cast hlt3
        exact ⟨k2, hk2, rfl, by omega⟩
  obtain ⟨k, hk, -, hkn⟩ := key (2 ^ 149)
  omega

/-! ## C7: direction of a limit update -/

/-- C7, as stated, fails on the `float` limits. At the speed limit
`2 ^ (-147)`, which 964 presses of `'s'` reach from the initial state, the
products with 1.1 and with 0.9 both round back to `2 ^ (-147)`, so neither
update changes the limit; and some number of presses of `'s'` from the
initial state does reach a positive speed limit that `'s'` does not lower. -/
theorem limit_update_stalls :
    applyLimitUpdate32 ⟨F32.finite 0, F32.finite 0, F32.finite (1 / 2 ^ 147), F32.finite 20⟩
        (lit32 1) (lit32 (11/10))
        = ⟨F32.finite 0, F32.finite 0, F32.finite (1 / 2 ^ 147), F32.finite 20⟩
      ∧ applyLimitUpdate32
          ⟨F32.finite 0, F32.finite 0, F32.finite (1 / 2 ^ 147), F32.finite 20⟩
          (lit32 1) (lit32 (9/10))
        = ⟨F32.finite 0, F32.finite 0, F32.finite (1 / 2 ^ 147), F32.finite 20⟩
      ∧ (∃ (n : ℕ) (x : ℚ),
          (run32 init32 (List.replicate n (some 's'))).speedlim = F32.finite x ∧ 0 < x
            ∧ flt32 (update32 (run32 init32 (List.replicate n (some 's'))) 's').speedlim
                (F32.finite x) = false)
      ∧ ¬ ∀ (s : State32) (sel : F32) (x f : ℚ),
          sel ≠ F32.finite 0 → s.speedlim = F32.finite x → 0 < x →
            (1 < f →
                flt32 s.speedlim (applyLimitUpdate32 s sel (F32.finite f)).speedlim = true)
              ∧ (f < 1 →
                flt32 (applyLimitUpdate32 s sel (F32.finite f)).speedlim s.speedlim = true) := by
  have h1 : applyLimitUpdate32
      ⟨F32.finite 0, F32.finite 0, F32.finite (1 / 2 ^ 147), F32.finite 20⟩
      (lit32 1) (lit32 (11/10))
      = ⟨F32.finite 0, F32.finite 0, F32.finite (1 / 2 ^ 147), F32.finite 20⟩ := by decide!
  have h2 : applyLimitUpdate32
      ⟨F32.finite 0, F32.finite 0, F32.finite (1 / 2 ^ 147), F32.finite 20⟩
      (lit32 1) (lit32 (9/10))
      = ⟨F32.finite 0, F32.finite 0, F32.finite (1 / 2 ^ 147), F32.finite 20⟩ := by decide!
  refine ⟨h1, h2, lowering_stalls_reachable, ?_⟩
  intro h
  have h3 := (h ⟨F32.finite 0, F32.finite 0, F32.finite (1 / 2 ^ 147), F32.finite 20⟩
    (F32.finite 1) (1 / 2 ^ 147) (9227469/8388608) (by decide) rfl (by positivity)).1
    (by norm_num)
  rw [← lit32_one, ← lit32_raise, h1] at h3
  simp [flt32] at h3

/-- C7, amended: a limit update with selector `sel` and factor `f` targets the
speed limit when `sel` is not 0 and the angle limit otherwise, and leaves the
other limit as it was. When the targeted limit is a positive finite `float`
and the exact product of limit and factor is at least `2 ^ (-126)`, the least
normal `float`, a factor of at least `1 + 2 ^ (-23)` (every `float` above 1)
strictly raises the limit and a factor of at most `1 - 2 ^ (-24)` (every
`float` below 1) strictly lowers it. -/
theorem limit_update_direction32 (s : State32) (sel g : F32) (x f : ℚ) :
    (sel ≠ F32.finite 0 → s.speedlim = F32.finite x → 0 < x → x < 2 ^ 128 →
        (2 : ℚ) ^ (-126 : ℤ) ≤ x * f →
        (1 + 1 / 2 ^ 23 ≤ f →
            flt32 s.speedlim (applyLimitUpdate32 s sel (F32.finite f)).speedlim = true)
          ∧ (f ≤ 1 - 1 / 2 ^ 24 →
            flt32 (applyLimitUpdate32 s sel (F32.finite f)).speedlim s.speedlim = true))
      ∧ (sel = F32.finite 0 → s.anglelim = F32.finite x → 0 < x → x < 2 ^ 128 →
        (2 : ℚ) ^ (-126 : ℤ) ≤ x * f →
        (1 + 1 / 2 ^ 23 ≤ f →
            flt32 s.anglelim (applyLimitUpdate32 s sel (F32.finite f)).anglelim = true)
          ∧ (f ≤ 1 - 1 / 2 ^ 24 →
            flt32 (applyLimitUpdate32 s sel (F32.finite f)).anglelim s.anglelim = true))
      ∧ (sel ≠ F32.finite 0 → (applyLimitUpdate32 s sel g).anglelim = s.anglelim)
      ∧ (sel = F32.finite 0 → (applyLimitUpdate32 s sel g).speedlim = s.speedlim) := by
  refine ⟨?_, ?_, ?_, ?_⟩
  · intro hsel hl hx hx2 hq
    simp only [applyLimitUpdate32, hsel, ne_eq, not_false_eq_true, if_true, hl]
    exact ⟨fun hf => fmul32_gt x f hx hq hf, fun hf => fmul32_lt x f hx hx2 hq hf⟩
  · intro hsel hl hx hx2 hq
    simp only [applyLimitUpdate32, hsel, ne_eq, not_true_eq_false, if_false, hl]
    exact ⟨fun hf => fmul32_gt x f hx hq hf, fun hf => fmul32_lt x f hx hx2 hq hf⟩
  · intro hsel
    simp [applyLimitUpdate32, hsel]
  · intro hsel
    simp [applyLimitUpdate32, hsel]

/-- The entries of the keys `'w'` and `'d'` applied to the initial state. -/
theorem limit_update_direction32_witness :
    flt32 init32.speedlim
        (applyLimitUpdate32 init32 (F32.finite 1) (F32.finite (9227469/8388608))).speedlim
        = true
      ∧ flt32
          (applyLimitUpdate32 init32 (F32.finite 0) (F32.finite (7549747/8388608))).anglelim
          init32.anglelim = true
      ∧ (applyLimitUpdate32 init32 (F32.finite 1) (F32.finite (9227469/8388608))).anglelim
          = init32.anglelim :=
  ⟨((limit_update_direction32 init32 (F32.finite 1) (F32.finite (9227469/8388608)) 1
        (9227469/8388608)).1
      (by decide) rfl (by norm_num) (by norm_num)
      (by rw [zpow_neg]; norm_num)).1 (by norm_num),
    ((limit_update_direction32 init32 (F32.finite 0) (F32.finite (7549747/8388608)) 20
        (7549747/8388608)).2.1
      rfl rfl (by norm_num) (by norm_num)
      (by rw [zpow_neg]; norm_num)).2 (by norm_num),
    (limit_update_direction32 init32 (F32.finite 1) (F32.finite (9227469/8388608)) 1
        (9227469/8388608)).2.2.1 (by decide)⟩

/-! ## C8: the four limit keys -/

/-- C8, as stated, fails on the `float` limits. At the speed limit
`2 ^ (-147)`, which 964 presses of `'s'` reach from the initial state, a tick
with `'w'` and a tick with `'s'` both leave the state as it was, so the speed
limit is not multiplied by 1.1 or by 0.9, rounding allowed for; and some
number of presses of `'s'` from the initial state does reach a positive speed
limit that `'s'` does not bring to within rounding of 0.9 times itself. -/
theorem limit_keys_scale_stalls :
    update32 ⟨F32.finite 0, F32.finite 0, F32.finite (1 / 2 ^ 147), F32.finite 20⟩ 'w'
        = ⟨F32.finite 0, F32.finite 0, F32.finite (1 / 2 ^ 147), F32.finite 20⟩
      ∧ update32 ⟨F32.finite 0, F32.finite 0, F32.finite (1 / 2 ^ 147), F32.finite 20⟩ 's'
        = ⟨F32.finite 0, F32.finite 0, F32.finite (1 / 2 ^ 147), F32.finite 20⟩
      ∧ (∃ (n : ℕ) (x : ℚ),
          (run32 init32 (List.replicate n (some 's'))).speedlim = F32.finite x ∧ 0 < x
            ∧ ¬ ∃ y : ℚ,
                (update32 (run32 init32 (List.replicate n (some 's'))) 's').speedlim
                  = F32.finite y
                ∧ |y - x * (9/10)| ≤ x / 2 ^ 23)
      ∧ ¬ ∀ (s : State32) (x : ℚ), s.speedlim = F32.finite x → 0 < x → x ≤ 2 ^ 127 →
          ∃ y : ℚ, (update32 s 'w').speedlim = F32.finite y
            ∧ |y - x * (11/10)| ≤ x / 2 ^ 23 := by
  have h1 : update32 ⟨F32.finite 0, F32.finite 0, F32.finite (1 / 2 ^ 147), F32.finite 20⟩ 'w'
      = ⟨F32.finite 0, F32.finite 0, F32.finite (1 / 2 ^ 147), F32.finite 20⟩ := by
    rw [update32_w]
    decide!
  have h2 : update32 ⟨F32.finite 0, F32.finite 0, F32.finite (1 / 2 ^ 147), F32.finite 20⟩ 's'
      = ⟨F32.finite 0, F32.finite 0, F32.finite (1 / 2 ^ 147), F32.finite 20⟩ := by
    rw [update32_s]
    decide!
  refine ⟨h1, h2, ?_, ?_⟩
  · obtain ⟨n, x, hl, hx, hstall⟩ := lowering_stalls_reachable
    refine ⟨n, x, hl, hx, ?_⟩
    rintro ⟨y, hy, hclose⟩
    rw [hy] at hstall
    have hxy : x ≤ y := by
      simpa [flt32] using hstall
    have hc := (abs_le.1 hclose).2
    have h23 : x / 2 ^ 23 = x * (1 / 2 ^ 23) := by ring
    rw [h23] at hc
    norm_num at hc
    linarith
  intro h
  obtain ⟨y, hy, hclose⟩ :=
    h ⟨F32.finite 0, F32.finite 0, F32.finite (1 / 2 ^ 147), F32.finite 20⟩ (1 / 2 ^ 147)
      rfl (by positivity) (by norm_num)
  rw [h1] at hy
  have hyx : (1 / 2 ^ 147 : ℚ) = y := F32.finite.inj hy
  rw [← hyx, abs_le] at hclose
  have hp : (0 : ℚ) < 1 / 2 ^ 147 := by positivity
  have h23 : (1 / 2 ^ 147 : ℚ) / 2 ^ 23 = 1 / 2 ^ 147 * (1 / 2 ^ 23) := by ring
  rw [h23] at hclose
  generalize (1 / 2 ^ 147 : ℚ) = a at hclose hp
  have := hclose.1
  norm_num at this
  linarith

/-- C8, amended: a tick with `'w'` replaces the speed limit by its `float`
product with 1.1 and a tick with `'s'` by its `float` product with 0.9; a tick
with `'e'` or `'d'` does the same to the angle limit; the other limit, the
speed and the angle are as before. While the limit is between `2 ^ (-125)` and
`2 ^ 127` that product is finite and is the limit times 1.1 (times 0.9) to
within `2 ^ (-23)` of the limit. -/
theorem limit_keys_scale32 (s : State32) (x : ℚ) :
    update32 s 'w' = { s with speedlim := fmul32 s.speedlim (lit32 (11/10)) }
      ∧ update32 s 's' = { s with speedlim := fmul32 s.speedlim (lit32 (9/10)) }
      ∧ update32 s 'e' = { s with anglelim := fmul32 s.anglelim (lit32 (11/10)) }
      ∧ update32 s 'd' = { s with anglelim := fmul32 s.anglelim (lit32 (9/10)) }
      ∧ ((2 : ℚ) ^ (-125 : ℤ) ≤ x → x ≤ 2 ^ 127 →
          (∃ y : ℚ, fmul32 (F32.finite x) (lit32 (11/10)) = F32.finite y
              ∧ |y - x * (11/10)| ≤ x / 2 ^ 23)
            ∧ (∃ y : ℚ, fmul32 (F32.finite x) (lit32 (9/10)) = F32.finite y
              ∧ |y - x * (9/10)| ≤ x / 2 ^ 23)) :=
  ⟨update32_w s, update32_s s, update32_e s, update32_d s,
    fun h1 h2 => ⟨fmul32_raise_close x h1 h2, fmul32_lower_close x h1 h2⟩⟩

/-- The limits 1 and 20 of the initial state are in the range where the keys
scale to within rounding. -/
theorem limit_keys_scale32_witness :
    ((2 : ℚ) ^ (-125 : ℤ) ≤ 1 ∧ (1 : ℚ) ≤ 2 ^ 127
        ∧ ∃ y : ℚ, fmul32 (F32.finite 1) (lit32 (11/10)) = F32.finite y
            ∧ |y - 1 * (11/10)| ≤ 1 / 2 ^ 23)
      ∧ ((2 : ℚ) ^ (-125 : ℤ) ≤ 20 ∧ (20 : ℚ) ≤ 2 ^ 127
        ∧ ∃ y : ℚ, fmul32 (F32.finite 20) (lit32 (9/10)) = F32.finite y
            ∧ |y - 20 * (9/10)| ≤ 20 / 2 ^ 23) :=
  ⟨⟨by rw [zpow_neg]; norm_num, by norm_num,
      ((limit_keys_scale32 init32 1).2.2.2.2 (by rw [zpow_neg]; norm_num) (by norm_num)).1⟩,
    ⟨by rw [zpow_neg]; norm_num, by norm_num,
      ((limit_keys_scale32 init32 20).2.2.2.2 (by rw [zpow_neg]; norm_num) (by norm_num)).2⟩⟩

end Teleop
